import Mathlib

/-!
Verification of the convex-hull core in src/ii_compat/src/CPU/CPU.cpp.

The C++ code operates in place on a raw buffer of 2-float points.  The
algorithms use only ring operations and comparisons on the coordinates
(+, -, *, <, =; never /), so the embedding is stated over an arbitrary
linear ordered commutative ring α; every finite float value is a rational
number, so the float program is the instance of this development at a
subring of ℚ.  Concrete counterexamples are evaluated at α = ℤ.

A buffer range is a List (point α), and every in-place rearrangement is a
function from the list to the rearranged list.  Fallible behaviour is made
explicit with Except:

  * a failing ASSERT (Debug/Assert.h halts on violation)      -> Err.assertFailed
  * a read past the range handed to the routine (the C++ reads
    unspecified stale buffer memory, or memory outside the
    allocation entirely)                                      -> Err.oobRead
  * std::sort on an inverted range (first > last)             -> Err.invalidRange
  * exhaustion of the structural fuel that makes the
    recursions structural (never reached when the fuel is at
    least the range length, as in the wrappers below)         -> Err.outOfFuel

Where the C++ relies on library routines whose exact rearrangement is
unspecified but whose result is canonicalised immediately afterwards, the
embedding picks the deterministic representative justified in the comment
at the definition.
-/

namespace CPU

/-- The 2D point of CPU.cpp (struct point, lines 16-30), with the float
coordinates modelled exactly. -/
structure point (α : Type) where
  x : α
  y : α
deriving DecidableEq

variable {α : Type} [LinearOrderedCommRing α]

instance : Sub (point α) := ⟨fun a b => ⟨a.x - b.x, a.y - b.y⟩⟩

instance : Add (point α) := ⟨fun a b => ⟨a.x + b.x, a.y + b.y⟩⟩

/-- point::cross (lines 112-115): u.x * v.y - u.y * v.x. -/
def point.cross (u v : point α) : α :=
  u.x * v.y - u.y * v.x

/-- The origin; also the value the minimum point becomes after
grahamScan's translation. -/
def pzero : point α := ⟨0, 0⟩

/-- point::operator< (lines 117-120): lexicographic on (x, y) via std::tie. -/
def ltLexB (u v : point α) : Bool :=
  decide (u.x < v.x ∨ (u.x = v.x ∧ u.y < v.y))

/-- point::operator> (lines 122-125): std::tie(x,y) > std::tie(p.x,p.y),
which is exactly operator< with the arguments flipped. -/
def gtLexB (u v : point α) : Bool :=
  ltLexB v u

/-- The polar-angle comparator of grahamScan's std::sort call
(lines 241-248): positive cross means u strictly before v; exact ties
(collinear with the origin) fall back to lexicographic order. -/
def compLtB (u v : point α) : Bool :=
  if point.cross u v ≠ 0 then decide (0 < point.cross u v)
  else if u.x ≠ v.x then decide (u.x < v.x)
  else decide (u.y < v.y)

/-- Abnormal outcomes of the C++ routines; see the module comment. -/
inductive Err where
  | assertFailed
  | oobRead
  | invalidRange
  | outOfFuel
deriving DecidableEq

/-- Insert x into l, placing it before the first element h with c h x
false.  Auxiliary for sortC. -/
def insertC (c : point α → point α → Bool) (x : point α) :
    List (point α) → List (point α)
  | [] => [x]
  | h :: t => if c h x then h :: insertC c x t else x :: h :: t

/-- Model of std::sort(first, last, c) for a strict comparator c
(insertion sort).  std::sort only promises a permutation that is sorted
with respect to c; for every comparator used in CPU.cpp two points that
compare equivalent under c are equal as values, so the sorted sequence of
values is unique and this deterministic model produces exactly the
sequence the C++ leaves in the buffer. -/
def sortC (c : point α → point α → Bool) : List (point α) → List (point α)
  | [] => []
  | h :: t => insertC c h (sortC c t)

/-- Value of std::min_element(first, last) with operator< (used at lines
190 and 235; min_element returns the first minimal element; ties keep the
earlier element, and only the value is used below). -/
def minVal (x : point α) (t : List (point α)) : point α :=
  t.foldl (fun a b => if ltLexB b a then b else a) x

/-- Value of the second component of std::minmax_element (line 190;
minmax_element returns the last maximal element, but only its value is
ever used). -/
def maxVal (x : point α) (t : List (point α)) : point α :=
  t.foldl (fun a b => if ltLexB a b then b else a) x

/-- Swap the values at positions i and j, as std::swap on two buffer
cells.  Out-of-range indices leave the list unchanged (every use below is
in range). -/
def swapIdx (l : List (point α)) (i j : Nat) : List (point α) :=
  match l.get? i, l.get? j with
  | some a, some b => (l.set i b).set j a
  | _, _ => l

/-- One forward pass of std::swap_ranges(src, src + len, dst) (used at
lines 183 and 218): swap positions (src + k, dst + k) for k = 0, 1, ...,
in that order.  The forward order matters: the C++ calls may overlap
(dst ≤ src < dst + len), and sequential forward swaps reproduce what the
element-wise loop does in that case. -/
def swapRangesList (l : List (point α)) (src len dst : Nat) : List (point α) :=
  match len with
  | 0 => l
  | n + 1 => swapRangesList (swapIdx l src dst) (src + 1) n (dst + 1)

/-- State walked by half_stable_partition (lines 223-231).  The first
list is the unscanned suffix [it, last); f is the current failing region
[pivot, it) in buffer order.  On pred(x) the C++ swaps x with the front
cell of the failing region (std::swap(*it, *pivot++)), which appends x to
the kept region and rotates the failing region left by one. -/
def hspGo (pr : point α → Bool) :
    List (point α) → List (point α) → List (point α) × List (point α)
  | [], f => ([], f)
  | x :: todo, f =>
    if pr x then
      match f with
      | [] => let r := hspGo pr todo []; (x :: r.1, r.2)
      | g :: gs => let r := hspGo pr todo (gs ++ [g]); (x :: r.1, r.2)
    else hspGo pr todo (f ++ [x])

/-- half_stable_partition (lines 223-231): returns the rearranged range
and the boundary offset (pivot - first). -/
def half_stable_partition (pr : point α → Bool) (l : List (point α)) :
    List (point α) × Nat :=
  let r := hspGo pr l []
  (r.1 ++ r.2, r.1.length)

/-- The farthest-point scan of findHull (lines 159-172) over the points
after first, carrying (best index, best distance); dist starts at -1 and
is improved strictly (cur_dist > dist), so the first maximal element
wins. -/
def argmaxGo (d u : point α) (best : Nat) (bestDist : α) (idx : Nat) :
    List (point α) → Nat × α
  | [] => (best, bestDist)
  | p :: t =>
    let cd := point.cross d (u - p)
    if bestDist < cd then argmaxGo d u idx cd (idx + 1) t
    else argmaxGo d u best bestDist (idx + 1) t

/-- findHull (lines 153-186) on the range l with edge u -> v, returning
the rearranged range and the boundary offset of its hull part.  The
first argument is structural fuel; one unit is spent per call, and every
recursive call is on a strictly shorter range, so fuel = range length
(as passed by quickHull) never runs out.  An empty range models the C++
calling findHull with first == last: ASSERT(*first == u) dereferences
past the range, and the farthest-point loop below it starts past last
and can never reach its exit condition -- abnormal either way, so
Err.oobRead. -/
def findHull : Nat → List (point α) → point α → point α →
    Except Err (List (point α) × Nat)
  | 0, _, _, _ => .error .outOfFuel
  | _ + 1, [], _, _ => .error .oobRead
  | _ + 1, [x], u, _ =>
    if x = u then .ok ([x], 1) else .error .assertFailed
  | f + 1, x :: p0 :: rest0, u, v =>
    if x ≠ u then .error .assertFailed
    else
      let rest := p0 :: rest0
      let d := v - u
      if rest.any (fun p => decide (point.cross d (u - p) < 0)) then
        .error .assertFailed
      else
        let fi := (argmaxGo d u 0 (-1) 0 rest).1
        let far_p := rest.getD fi pzero
        let between := rest.take fi
        let after := rest.drop (fi + 1)
        let uf := u - far_p
        let vf := v - far_p
        let isOuterior : point α → Bool := fun p =>
          decide (0 < point.cross (p - far_p) vf) ||
          decide (0 < point.cross uf (p - far_p))
        let hb := half_stable_partition isOuterior between
        let ha := half_stable_partition isOuterior after
        match findHull f (x :: hb.1.take hb.2) u far_p with
        | .error e => .error e
        | .ok (leftR, lb) =>
          match findHull f (far_p :: ha.1.take ha.2) far_p v with
          | .error e => .error e
          | .ok (rightR, rb) =>
            let full := leftR ++ hb.1.drop hb.2 ++ rightR ++ ha.1.drop ha.2
            .ok (swapRangesList full (1 + fi) rb lb, lb + rb)

/-- The state of quickHull (lines 188-221) right after its two findHull
calls and before the collinear fix-up and the merge: the rearranged left
side A2 (from position first) with its boundary lbA, the rearranged
right side B2 (from position pivot) with its boundary rbB, and the two
anchor points. -/
structure QHMid (α : Type) where
  A2 : List (point α)
  lbA : Nat
  B2 : List (point α)
  rbB : Nat
  left : point α
  right : point α
deriving DecidableEq

/-- quickHull (lines 188-221) up to and including the two findHull calls.
std::partition only splits the range by the predicate (internal order
unspecified); both sides are completely re-sorted on lines 200-201, so
the filter/filter-not split composed with the sorts reproduces the
buffer contents exactly.  An empty right side means pivot == last: the
C++ ASSERT(*pivot == left) then dereferences past the range. -/
def quickHullMid (l : List (point α)) : Except Err (QHMid α) :=
  match l with
  | [] => .error .oobRead
  | x :: xs =>
    let left := minVal x xs
    let right := maxVal x xs
    let v := left - right
    let pr : point α → Bool := fun p =>
      decide (p = right) || decide (0 < point.cross (p - right) v)
    let A1 := sortC gtLexB (l.filter pr)
    let B1 := sortC ltLexB (l.filter (fun p => !(pr p)))
    if A1.head? ≠ some right then .error .assertFailed
    else
      match B1.head? with
      | none => .error .oobRead
      | some bh =>
        if bh ≠ left then .error .assertFailed
        else
          match findHull A1.length A1 right left with
          | .error e => .error e
          | .ok (A2, lbA) =>
            match findHull B1.length B1 left right with
            | .error e => .error e
            | .ok (B2, rbB) => .ok ⟨A2, lbA, B2, rbB, left, right⟩

/-- quickHull (lines 188-221): the phase captured by quickHullMid,
followed by the collinear edge-case fix-up (lines 207-217, including
ASSERT(pivot + 2 == right_boundary)) and the merging
std::swap_ranges(pivot, right_boundary, left_boundary) of line 218.
Returns the rearranged range and the hull count boundary - first. -/
def quickHull (l : List (point α)) : Except Err (List (point α) × Nat) :=
  match quickHullMid l with
  | .error e => .error e
  | .ok st =>
    let fix :=
      if 2 ≤ st.B2.length then
        if point.cross (st.right - st.left) (st.B2.getD 1 pzero - st.left) = 0 then
          if st.rbB = 2 then Except.ok (st.rbB - 1)
          else Except.error Err.assertFailed
        else Except.ok st.rbB
      else Except.ok st.rbB
    match fix with
    | .error e => .error e
    | .ok rb2 =>
      let whole := st.A2 ++ st.B2
      .ok (swapRangesList whole st.A2.length rb2 st.lbA, st.lbA + rb2)

/-- compactGo u t walks the sorted tail as the collapse loop of
grahamScan (lines 250-263) does: u is the candidate of the current run;
a collinear successor (cross(u, v) == 0) replaces it, a non-collinear
one ends the run and emits u. -/
def compactGo (u : point α) : List (point α) → List (point α)
  | [] => [u]
  | v :: t => if point.cross u v = 0 then compactGo v t else u :: compactGo v t

/-- The collinear-collapse loop of grahamScan (lines 250-263) applied to
the sorted points after position 0. -/
def compact : List (point α) → List (point α)
  | [] => []
  | h :: t => compactGo h t

/-- The pop loop of grahamScan's sweep (lines 271-276):
while (s > 0 && cross(cur - p, v) >= 0) { --s; p = ps[s-1]; v = ps[s]-p; }.
When the loop body runs at s = 1, the decrement leaves s = 0 and
p = ps[s-1] reads ps[-1], before the buffer: Err.oobRead. -/
def sweepPop (junk : point α) (arr : List (point α)) (cur : point α) :
    Nat → point α → point α → Except Err (Nat × point α × point α)
  | 0, p, v => .ok (0, p, v)
  | t + 1, p, v =>
    if 0 ≤ point.cross (cur - p) v then
      match t with
      | 0 => .error .oobRead
      | r + 1 =>
        sweepPop junk arr cur (r + 1) (arr.getD r junk)
          (arr.getD (r + 1) junk - arr.getD r junk)
    else .ok (t + 1, p, v)

/-- The sweep loop of grahamScan (lines 268-280), iterating i from 2 to
m - 1: read cur = ps[i], run the pop loop, then push with
std::swap(ps[i], ps[++s]); p += v; v = cur - p.  The first argument is
structural fuel, one unit per iteration; the wrapper passes m, which is
ample. -/
def sweepGo (junk : point α) :
    Nat → Nat → Nat → List (point α) → Nat → point α → point α →
    Except Err (List (point α) × Nat)
  | 0, _, _, _, _, _, _ => .error .outOfFuel
  | fuel + 1, i, m, arr, s, p, v =>
    if m ≤ i then .ok (arr, s)
    else
      let cur := arr.getD i junk
      match sweepPop junk arr cur s p v with
      | .error e => .error e
      | .ok (s1, p1, v1) =>
        let s2 := s1 + 1
        sweepGo junk fuel (i + 1) m (swapIdx arr i s2) s2 (p1 + v1)
          (cur - (p1 + v1))

/-- grahamScan (lines 233-286) on the full buffer of n points.  The C++
may read buffer cells at positions >= n (stale memory inside the
allocation, which init sized to the maximum requested n): those reads
are modelled by the junk parameter.  A read at a negative position
(ps[-1] in the pop loop) is outside the allocation: Err.oobRead.  For
n = 0 the code calls std::sort(ps + 1, ps + 0) on an inverted range:
Err.invalidRange.  Returns the final buffer and the count s + 1. -/
def grahamScan (junk : point α) (l : List (point α)) :
    Except Err (List (point α) × Nat) :=
  match l with
  | [] => .error .invalidRange
  | x :: xs =>
    let mn := minVal x xs
    let j := l.findIdx (fun p => decide (p = mn))
    let l2 := (swapIdx l 0 j).map (fun p => p - mn)
    let st := sortC compLtB l2.tail
    let cpt : List (point α) := compact st
    let m := 1 + cpt.length
    let arr := l2.headD junk :: cpt ++ (l2.headD junk :: st).drop m
    match sweepGo junk m 2 m arr 1 (arr.getD 0 junk)
        (arr.getD 1 junk - arr.getD 0 junk) with
    | .error e => .error e
    | .ok (arr2, s) => .ok (arr2.map (fun p => p + mn), s + 1)

/-- calculate (lines 77-104): generates n points (the generated sequence
is the parameter here), runs grahamScan on one copy of the buffer,
restores the buffer from the pristine copy and runs quickHull on it, and
returns quickHull's hull count.  There is no check of n before the two
engines run. -/
def calculate (junk : point α) (pts : List (point α)) : Except Err Nat :=
  match grahamScan junk pts with
  | .error e => .error e
  | .ok _ =>
    match quickHull pts with
    | .error e => .error e
    | .ok r => .ok r.2

end CPU

namespace CPU

/-- C1: the claim states that after a hull computation returns count k,
the positions [0, k) form a convex polygon in which each hull vertex
appears exactly once.  On the input consisting of the point (0,0) twice,
grahamScan returns k = 2 and the prefix [(0,0), (0,0)]: the single hull
vertex appears twice, so the claim fails on this input (quickHull on the
same input dereferences past its range and then scans an empty range,
see c2_agreement_fails_on_duplicate_input). -/
theorem c1_grahamScan_duplicate_hull_vertex :
    grahamScan (pzero : point ℤ) [⟨0, 0⟩, ⟨0, 0⟩] = .ok ([⟨0, 0⟩, ⟨0, 0⟩], 2) ∧
    ¬ ([(⟨0, 0⟩ : point ℤ), ⟨0, 0⟩].take 2).Nodup := by
  exact ⟨by rfl, by decide⟩

/-- C2: the claim states that for every input with n >= 1 the hull-vertex
sets of the two engines agree.  On the input consisting of the point
(1,1) twice, grahamScan returns the hull prefix [(1,1), (1,1)] with
count 2, while quickHull never produces a hull at all: its partition
keeps every point on the left side, pivot == last, and
ASSERT(*pivot == left) dereferences past the range (after which the
right-side findHull would scan an empty range without ever reaching its
exit condition). -/
theorem c2_agreement_fails_on_duplicate_input :
    quickHull ([⟨1, 1⟩, ⟨1, 1⟩] : List (point ℤ)) = .error .oobRead ∧
    grahamScan (pzero : point ℤ) [⟨1, 1⟩, ⟨1, 1⟩] = .ok ([⟨1, 1⟩, ⟨1, 1⟩], 2) := by
  exact ⟨by rfl, by rfl⟩

/-- C5: the claim states that no three consecutive vertices of a
returned hull prefix are collinear.  On the input
[(0,0), (1,0), (2,0), (2,0)] (a collinear set with the maximum point
duplicated) quickHull returns count 3 with prefix [(2,0), (2,0), (0,0)],
whose three vertices are pairwise collinear (the consecutive turn
(2,0) -> (2,0) -> (0,0) has zero cross product). -/
theorem c5_quickHull_collinear_triple :
    quickHull ([⟨0, 0⟩, ⟨1, 0⟩, ⟨2, 0⟩, ⟨2, 0⟩] : List (point ℤ)) =
      .ok ([⟨2, 0⟩, ⟨2, 0⟩, ⟨0, 0⟩, ⟨1, 0⟩], 3) ∧
    point.cross ((⟨2, 0⟩ : point ℤ) - ⟨2, 0⟩) ((⟨0, 0⟩ : point ℤ) - ⟨2, 0⟩) = 0 := by
  exact ⟨by rfl, by decide⟩

/-- C6: the claim states that the entry point rejects n = 0 before
either hull algorithm runs.  calculate has no such check: on the empty
input it runs grahamScan, which reaches std::sort(ps + 1, ps + 0) on an
inverted range (an internal failure, not a rejection). -/
theorem c6_calculate_no_empty_guard :
    calculate (pzero : point ℤ) [] = .error .invalidRange := by
  rfl

/-- C8: the claim states that on a single-point input both engines
succeed with hull count 1.  grahamScan returns count 2 (s is
initialised to 1 and the sweep loop never runs, so it returns
s + 1 = 2), and quickHull fails: its partition keeps the single point,
pivot == last, and ASSERT(*pivot == left) dereferences past the range. -/
theorem c8_single_point_counts :
    grahamScan (pzero : point ℤ) [⟨5, 7⟩] = .ok ([⟨5, 7⟩], 2) ∧
    quickHull ([⟨5, 7⟩] : List (point ℤ)) = .error .oobRead := by
  exact ⟨by rfl, by rfl⟩

end CPU

namespace CPU

section Helper

variable {β : Type}

/-- Putting the element at position k at the front while writing x into
position k permutes a cons of the original list. -/
theorem cons_set_perm : ∀ (t : List β) (k : Nat) (x b : β),
    t.get? k = some b → (b :: t.set k x).Perm (x :: t) := by
  intro t
  induction t with
  | nil => intro k x b h; cases h
  | cons y t2 ih =>
    intro k x b h
    cases k with
    | zero =>
      cases h
      exact List.Perm.swap x y t2
    | succ m =>
      have h2 : t2.get? m = some b := h
      have step := ih m x b h2
      show (b :: y :: t2.set m x).Perm (x :: y :: t2)
      exact (List.Perm.swap y b _).trans
        ((List.Perm.cons y step).trans (List.Perm.swap x y t2))

/-- Writing the values at two positions into each other permutes the
list. -/
theorem set_set_perm : ∀ (l : List β) (i j : Nat) (a b : β),
    l.get? i = some a → l.get? j = some b → ((l.set i b).set j a).Perm l := by
  intro l
  induction l with
  | nil => intro i j a b hi _; cases hi
  | cons x t ih =>
    intro i j a b hi hj
    cases i with
    | zero =>
      cases hi
      cases j with
      | zero =>
        cases hj
        exact List.Perm.refl _
      | succ m =>
        have hj2 : t.get? m = some b := hj
        show (b :: t.set m x).Perm (x :: t)
        exact cons_set_perm t m x b hj2
    | succ k =>
      have hi2 : t.get? k = some a := hi
      cases j with
      | zero =>
        cases hj
        show (a :: t.set k x).Perm (x :: t)
        exact cons_set_perm t k x a hi2
      | succ m =>
        have hj2 : t.get? m = some b := hj
        have : ((x :: t).set (k + 1) b).set (m + 1) a = x :: (t.set k b).set m a := rfl
        rw [this]
        exact List.Perm.cons x (ih k m a b hi2 hj2)

end Helper

section HelperPoint

variable {α : Type} [LinearOrderedCommRing α]

/-- swapIdx permutes the list. -/
theorem swapIdx_perm (l : List (point α)) (i j : Nat) : (swapIdx l i j).Perm l := by
  unfold swapIdx
  cases hi : l.get? i with
  | none => exact List.Perm.refl _
  | some a =>
    cases hj : l.get? j with
    | none => exact List.Perm.refl _
    | some b => exact set_set_perm l i j a b hi hj

/-- swapRangesList permutes the list. -/
theorem swapRangesList_perm (len : Nat) :
    ∀ (l : List (point α)) (src dst : Nat), (swapRangesList l src len dst).Perm l := by
  induction len with
  | zero => intro l src dst; exact List.Perm.refl _
  | succ n ih =>
    intro l src dst
    exact (ih (swapIdx l src dst) (src + 1) (dst + 1)).trans (swapIdx_perm l src dst)

/-- The kept side of hspGo is exactly the filtered list, and the failing
side is a permutation of the carried failing region plus the elements
failing the predicate. -/
theorem hspGo_spec (pr : point α → Bool) :
    ∀ (l f : List (point α)),
      (hspGo pr l f).1 = l.filter pr ∧
      (hspGo pr l f).2.Perm (f ++ l.filter (fun q => !(pr q))) := by
  intro l
  induction l with
  | nil =>
    intro f
    constructor
    · rfl
    · simp [hspGo]
  | cons x todo ih =>
    intro f
    by_cases hx : pr x = true
    · cases f with
      | nil =>
        have h := ih []
        constructor
        · simp only [hspGo, hx, if_pos, List.filter_cons, hx]
          rw [h.1]
        · simpa [hspGo, hx, List.filter_cons] using h.2
      | cons g gs =>
        have h := ih (gs ++ [g])
        constructor
        · simp only [hspGo, hx, if_pos, List.filter_cons]
          rw [h.1]
        · have rot : (gs ++ [g]).Perm (g :: gs) := by
            simpa using (@List.perm_middle _ g gs []).symm.symm
          have base := h.2
          have : ((gs ++ [g]) ++ todo.filter (fun q => !(pr q))).Perm
              ((g :: gs) ++ todo.filter (fun q => !(pr q))) :=
            rot.append_right _
          simpa [hspGo, hx, List.filter_cons] using base.trans this
    · have hx2 : pr x = false := by
        cases hpx : pr x with
        | true => exact absurd hpx hx
        | false => rfl
      have h := ih (f ++ [x])
      constructor
      · simp only [hspGo, hx2, List.filter_cons]
        simp only [Bool.false_eq_true, if_false]
        rw [h.1]
      · have mid : ((f ++ [x]) ++ todo.filter (fun q => !(pr q))).Perm
            (f ++ x :: todo.filter (fun q => !(pr q))) := by
          rw [List.append_assoc]
          exact List.Perm.refl _
        have base := h.2
        simp only [hspGo, hx2, Bool.false_eq_true, if_false]
        refine base.trans ?_
        simpa [List.filter_cons, hx2] using mid

/-- C4: half_stable_partition returns a permutation of its input range
together with a boundary p; positions before p hold exactly the elements
satisfying the predicate in their original relative order (they equal
the filtered list), and positions from p on hold a permutation of the
elements failing the predicate (so each of them fails it). -/
theorem c4_half_stable_partition_spec (pr : point α → Bool) (l : List (point α)) :
    (half_stable_partition pr l).1.Perm l ∧
    (half_stable_partition pr l).2 = (l.filter pr).length ∧
    (half_stable_partition pr l).1.take (half_stable_partition pr l).2 =
      l.filter pr ∧
    ((half_stable_partition pr l).1.drop (half_stable_partition pr l).2).Perm
      (l.filter (fun q => !(pr q))) ∧
    (∀ q ∈ (half_stable_partition pr l).1.take (half_stable_partition pr l).2,
      pr q = true) ∧
    (∀ q ∈ (half_stable_partition pr l).1.drop (half_stable_partition pr l).2,
      pr q = false) := by
  have h := hspGo_spec pr l []
  have h1 : (hspGo pr l []).1 = l.filter pr := h.1
  have h2 : (hspGo pr l []).2.Perm (l.filter (fun q => !(pr q))) := by
    simpa using h.2
  have htake : (half_stable_partition pr l).1.take (half_stable_partition pr l).2 =
      l.filter pr := by
    simp only [half_stable_partition]
    rw [List.take_left, h1]
  have hdrop : ((half_stable_partition pr l).1.drop (half_stable_partition pr l).2).Perm
      (l.filter (fun q => !(pr q))) := by
    simp only [half_stable_partition]
    rw [List.drop_left]
    exact h2
  refine ⟨?_, ?_, htake, hdrop, ?_, ?_⟩
  · simp only [half_stable_partition]
    refine (List.Perm.append (by rw [h1]) h2).trans ?_
    exact List.filter_append_perm pr l
  · simp only [half_stable_partition]
    rw [h1]
  · intro q hq
    rw [htake] at hq
    exact (List.mem_filter.mp hq).2
  · intro q hq
    have := hdrop.mem_iff.mp hq
    have := (List.mem_filter.mp this).2
    simpa using this

end HelperPoint

end CPU

namespace CPU

section PermInfra

variable {α : Type} [LinearOrderedCommRing α]

/-- Reassembling a list from its first n elements, the element at
position n, and the rest. -/
theorem take_getD_drop {β : Type} (l : List β) (n : Nat) (d : β)
    (h : n < l.length) : l.take n ++ l.getD n d :: l.drop (n + 1) = l := by
  have hd : l.getD n d = l[n] := by
    rw [List.getD_eq_getElem?_getD, List.getElem?_eq_getElem h]
    rfl
  rw [hd, ← List.drop_eq_getElem_cons h, List.take_append_drop]

/-- insertC inserts its element somewhere: the result permutes the cons. -/
theorem insertC_perm (c : point α → point α → Bool) (x : point α) :
    ∀ l : List (point α), (insertC c x l).Perm (x :: l) := by
  intro l
  induction l with
  | nil => exact List.Perm.refl _
  | cons h t ih =>
    by_cases hc : c h x = true
    · simp only [insertC, hc, if_pos]
      exact (ih.cons h).trans (List.Perm.swap x h t)
    · simp only [insertC, hc, if_neg]
      exact List.Perm.refl _

/-- sortC permutes its input. -/
theorem sortC_perm (c : point α → point α → Bool) :
    ∀ l : List (point α), (sortC c l).Perm l := by
  intro l
  induction l with
  | nil => exact List.Perm.refl _
  | cons h t ih => exact (insertC_perm c h (sortC c t)).trans (ih.cons h)

/-- The rearranged range of half_stable_partition permutes the input. -/
theorem half_stable_partition_perm (pr : point α → Bool) (l : List (point α)) :
    (half_stable_partition pr l).1.Perm l := by
  have h := hspGo_spec pr l []
  have h2 : (hspGo pr l []).2.Perm (l.filter (fun q => !(pr q))) := by
    simpa using h.2
  simp only [half_stable_partition]
  exact (List.Perm.append (by rw [h.1]) h2).trans (List.filter_append_perm pr l)

/-- The index produced by the farthest-point scan points into the
scanned list (or is the inherited best index). -/
theorem argmaxGo_fst_cases (d u : point α) :
    ∀ (t : List (point α)) (best : Nat) (bd : α) (idx : Nat),
      (argmaxGo d u best bd idx t).1 = best ∨
      ∃ k, k < t.length ∧ (argmaxGo d u best bd idx t).1 = idx + k := by
  intro t
  induction t with
  | nil => intro best bd idx; exact Or.inl rfl
  | cons p t2 ih =>
    intro best bd idx
    by_cases hc : bd < point.cross d (u - p)
    · simp only [argmaxGo, hc, if_true, if_false]
      rcases ih idx (point.cross d (u - p)) (idx + 1) with h | ⟨k, hk, he⟩
      · exact Or.inr ⟨0, by simp, by simpa using h⟩
      · exact Or.inr ⟨k + 1, by simpa using Nat.succ_lt_succ hk, by omega⟩
    · simp only [argmaxGo, hc, if_true, if_false]
      rcases ih best bd (idx + 1) with h | ⟨k, hk, he⟩
      · exact Or.inl h
      · exact Or.inr ⟨k + 1, by simpa using Nat.succ_lt_succ hk, by omega⟩

/-- The farthest-point index of findHull is inside the scanned tail. -/
theorem argmax_lt_length (d u : point α) (bd : α) (t : List (point α))
    (ht : t ≠ []) : (argmaxGo d u 0 bd 0 t).1 < t.length := by
  rcases argmaxGo_fst_cases d u t 0 bd 0 with h | ⟨k, hk, he⟩
  · rw [h]
    exact List.length_pos.mpr ht
  · omega

/-- findHull only rearranges: a successful run returns a permutation of
its input range. -/
theorem findHull_perm :
    ∀ (fuel : Nat) (l : List (point α)) (u v : point α)
      (res : List (point α)) (b : Nat),
      findHull fuel l u v = .ok (res, b) → res.Perm l := by
  intro fuel
  induction fuel with
  | zero =>
    intro l u v res b h
    exact Except.noConfusion h
  | succ f ih =>
    intro l u v res b h
    match l with
    | [] => exact Except.noConfusion h
    | [x] =>
      by_cases hx : x = u
      · have : findHull (f + 1) [x] u v = .ok ([x], 1) := by
          simp [findHull, hx]
        rw [this] at h
        cases h
        exact List.Perm.refl _
      · have : findHull (f + 1) [x] u v = .error .assertFailed := by
          simp [findHull, hx]
        rw [this] at h
        exact Except.noConfusion h
    | x :: p0 :: rest0 =>
      simp only [findHull] at h
      split at h
      · exact Except.noConfusion h
      · split at h
        · exact Except.noConfusion h
        · split at h
          · exact Except.noConfusion h
          · rename_i leftR lb hL
            split at h
            · exact Except.noConfusion h
            · rename_i rightR rb hR
              cases h
              -- abbreviations matching the lets of findHull
              set rest := p0 :: rest0 with hrest
              set d := v - u with hd
              set fi := (argmaxGo d u 0 (-1) 0 rest).1 with hfi
              set far_p := rest.getD fi pzero with hfar
              set between := rest.take fi with hbetween
              set after := rest.drop (fi + 1) with hafter
              set isOut : point α → Bool := fun p =>
                decide (0 < point.cross (p - far_p) (v - far_p)) ||
                decide (0 < point.cross (u - far_p) (p - far_p)) with hiso
              have hfi_lt : fi < rest.length := by
                apply argmax_lt_length
                simp [hrest]
              have hsplit : between ++ far_p :: after = rest :=
                take_getD_drop rest fi pzero hfi_lt
              have hpermL : leftR.Perm
                  (x :: (half_stable_partition isOut between).1.take
                    (half_stable_partition isOut between).2) :=
                ih _ _ _ _ _ hL
              have hpermR : rightR.Perm
                  (far_p :: (half_stable_partition isOut after).1.take
                    (half_stable_partition isOut after).2) :=
                ih _ _ _ _ _ hR
              refine (swapRangesList_perm rb _ (1 + fi) lb).trans ?_
              rw [List.append_assoc, List.append_assoc]
              have hbfull : (half_stable_partition isOut between).1.take
                    (half_stable_partition isOut between).2 ++
                  (half_stable_partition isOut between).1.drop
                    (half_stable_partition isOut between).2 =
                  (half_stable_partition isOut between).1 :=
                List.take_append_drop _ _
              have hafull : (half_stable_partition isOut after).1.take
                    (half_stable_partition isOut after).2 ++
                  (half_stable_partition isOut after).1.drop
                    (half_stable_partition isOut after).2 =
                  (half_stable_partition isOut after).1 :=
                List.take_append_drop _ _
              have t1 : (rightR ++ (half_stable_partition isOut after).1.drop
                    (half_stable_partition isOut after).2).Perm
                  (far_p :: (half_stable_partition isOut after).1) := by
                refine (hpermR.append_right _).trans ?_
                rw [List.cons_append, hafull]
              have t3 : (leftR ++
                  ((half_stable_partition isOut between).1.drop
                    (half_stable_partition isOut between).2 ++
                  (rightR ++ (half_stable_partition isOut after).1.drop
                    (half_stable_partition isOut after).2))).Perm
                  ((x :: (half_stable_partition isOut between).1.take
                    (half_stable_partition isOut between).2) ++
                  ((half_stable_partition isOut between).1.drop
                    (half_stable_partition isOut between).2 ++
                  (far_p :: (half_stable_partition isOut after).1))) :=
                hpermL.append (List.Perm.append_left _ t1)
              refine t3.trans ?_
              have t4 : ((x :: (half_stable_partition isOut between).1.take
                    (half_stable_partition isOut between).2) ++
                  ((half_stable_partition isOut between).1.drop
                    (half_stable_partition isOut between).2 ++
                  (far_p :: (half_stable_partition isOut after).1))) =
                  x :: ((half_stable_partition isOut between).1 ++
                    (far_p :: (half_stable_partition isOut after).1)) := by
                rw [List.cons_append, ← List.append_assoc, hbfull]
              rw [t4]
              refine List.Perm.cons x ?_
              have t5 : ((half_stable_partition isOut between).1 ++
                  (far_p :: (half_stable_partition isOut after).1)).Perm
                  (between ++ far_p :: after) :=
                (half_stable_partition_perm isOut between).append
                  ((half_stable_partition_perm isOut after).cons far_p)
              refine t5.trans ?_
              rw [hsplit]

/-- The concatenation of the two rearranged sides of quickHullMid
permutes the input range. -/
theorem quickHullMid_perm (l : List (point α)) (st : QHMid α)
    (h : quickHullMid l = .ok st) : (st.A2 ++ st.B2).Perm l := by
  match l with
  | [] => exact Except.noConfusion h
  | x :: xs =>
    simp only [quickHullMid] at h
    split at h
    · exact Except.noConfusion h
    · split at h
      · exact Except.noConfusion h
      · split at h
        · exact Except.noConfusion h
        · split at h
          · exact Except.noConfusion h
          · rename_i A2 lbA hA
            split at h
            · exact Except.noConfusion h
            · rename_i B2 rbB hB
              cases h
              have hA2 := findHull_perm _ _ _ _ _ _ hA
              have hB2 := findHull_perm _ _ _ _ _ _ hB
              refine (hA2.append hB2).trans ?_
              refine ((sortC_perm gtLexB _).append (sortC_perm ltLexB _)).trans ?_
              exact List.filter_append_perm _ _

end PermInfra

end CPU

namespace CPU

section C3

variable {α : Type} [LinearOrderedCommRing α]

/-- C3 counterexample: the claim states that each engine leaves a
permutation of the input multiset in its buffer, with the non-hull
points in positions [k, n).  grahamScan does not: its collinear-collapse
loop overwrites the buffer.  On [(0,0), (2,0), (1,0)] it returns the
buffer [(0,0), (2,0), (2,0)] -- the input point (1,0) is gone and (2,0)
is duplicated, so the final buffer is not a permutation of the input. -/
theorem c3_grahamScan_not_permutation :
    grahamScan (pzero : point ℤ) [⟨0, 0⟩, ⟨2, 0⟩, ⟨1, 0⟩] =
      .ok ([⟨0, 0⟩, ⟨2, 0⟩, ⟨2, 0⟩], 2) ∧
    ¬ ([(⟨0, 0⟩ : point ℤ), ⟨2, 0⟩, ⟨2, 0⟩]).Perm [⟨0, 0⟩, ⟨2, 0⟩, ⟨1, 0⟩] := by
  exact ⟨by rfl, by decide⟩

/-- C3 (amended): quickHull does rearrange in place: whenever it
returns, its final buffer is a permutation of the input range, so
positions [0, k) hold the hull prefix and positions [k, n) hold exactly
the remaining input points.  (grahamScan guarantees this only for the
hull prefix, see c3_grahamScan_not_permutation.) -/
theorem c3_quickHull_permutation (l res : List (point α)) (k : Nat)
    (h : quickHull l = .ok (res, k)) : res.Perm l := by
  cases hm : quickHullMid l with
  | error e =>
    rw [quickHull, hm] at h
    exact Except.noConfusion h
  | ok st =>
    rw [quickHull, hm] at h
    dsimp only at h
    split at h
    · exact Except.noConfusion h
    · rename_i rb2 hfix
      cases h
      exact (swapRangesList_perm rb2 _ st.A2.length st.lbA).trans
        (quickHullMid_perm l st hm)

/-- Witness for c3_quickHull_permutation at a concrete input: quickHull
on the triangle [(0,0), (1,0), (0,1)] returns the rearranged buffer
[(1,0), (0,1), (0,0)] with count 3, and the theorem yields that this is
a permutation of the input. -/
theorem c3_quickHull_permutation_witness :
    ([(⟨1, 0⟩ : point ℤ), ⟨0, 1⟩, ⟨0, 0⟩]).Perm [⟨0, 0⟩, ⟨1, 0⟩, ⟨0, 1⟩] :=
  c3_quickHull_permutation [⟨0, 0⟩, ⟨1, 0⟩, ⟨0, 1⟩] [⟨1, 0⟩, ⟨0, 1⟩, ⟨0, 0⟩] 3
    (by rfl)

end C3

end CPU

namespace CPU

section Geometry

variable {α : Type} [LinearOrderedCommRing α]

/-- The lexicographic strict order underlying point::operator<. -/
def LtLex (u v : point α) : Prop :=
  u.x < v.x ∨ (u.x = v.x ∧ u.y < v.y)

/-- ltLexB decides LtLex. -/
theorem ltLexB_eq_true_iff (u v : point α) : ltLexB u v = true ↔ LtLex u v := by
  simp [ltLexB, LtLex]

/-- The open right half plane plus the positive y axis: where every
point lands after grahamScan translates by the lexicographic minimum
(except for exact duplicates of the minimum, which land on the
origin). -/
def inH (p : point α) : Prop :=
  0 < p.x ∨ (p.x = 0 ∧ 0 < p.y)

/-- Membership in the translated domain: the origin or the half
plane. -/
def inZH (p : point α) : Prop :=
  p = pzero ∨ inH p

theorem cross_self (u : point α) : point.cross u u = 0 := by
  simp [point.cross, mul_comm]

theorem cross_pzero_left (u : point α) : point.cross pzero u = 0 := by
  simp [point.cross, pzero]

theorem cross_pzero_right (u : point α) : point.cross u pzero = 0 := by
  simp [point.cross, pzero]

theorem cross_anticomm (u v : point α) : point.cross u v = -point.cross v u := by
  simp [point.cross]
  ring

theorem cross_add_anticomm (u v : point α) :
    point.cross u v + point.cross v u = 0 := by
  simp [point.cross]
  ring

/-- The x component of the three-fold linear dependence of three plane
vectors. -/
theorem cross_dep_x (u v w : point α) :
    point.cross u v * w.x + point.cross v w * u.x + point.cross w u * v.x = 0 := by
  simp [point.cross]
  ring

/-- The y component of the three-fold linear dependence of three plane
vectors. -/
theorem cross_dep_y (u v w : point α) :
    point.cross u v * w.y + point.cross v w * u.y + point.cross w u * v.y = 0 := by
  simp [point.cross]
  ring

theorem inH_x_nonneg {p : point α} (h : inH p) : 0 ≤ p.x := by
  rcases h with h | ⟨h, _⟩
  · exact le_of_lt h
  · exact le_of_eq h.symm

/-- Cross-product comparison is transitive inside the half plane: it
compares polar angles, which all lie in one open half turn there. -/
theorem transH {a b c : point α} (ha : inH a) (hb : inH b) (hc : inH c)
    (hab : 0 < point.cross a b) (hbc : 0 < point.cross b c) :
    0 < point.cross a c := by
  have dep := cross_dep_x a b c
  rcases hb with hbx | ⟨hbx, hby⟩
  · -- b.x > 0: cross a c * b.x = cross a b * c.x + cross b c * a.x >= 0
    have hax := inH_x_nonneg ha
    have hcx := inH_x_nonneg hc
    have key : point.cross a c * b.x =
        point.cross a b * c.x + point.cross b c * a.x := by
      have hca := cross_add_anticomm c a
      linear_combination (-1 : α) * dep + b.x * hca
    rcases lt_or_eq_of_le hax with hax2 | hax2
    · nlinarith
    · rcases lt_or_eq_of_le hcx with hcx2 | hcx2
      · nlinarith
      · -- a.x = 0 and c.x = 0: then cross a b = -a.y * b.x <= 0, contradiction
        exfalso
        rcases ha with ha2 | ⟨_, hay⟩
        · exact absurd ha2 (by rw [← hax2]; exact lt_irrefl 0)
        · have : point.cross a b = -(a.y * b.x) := by
            simp [point.cross, ← hax2]
          nlinarith
  · -- b.x = 0, b.y > 0: cross b c = -b.y * c.x > 0 forces c.x < 0
    exfalso
    have : point.cross b c = -(b.y * c.x) := by
      simp [point.cross, hbx]
    have hcx : c.x < 0 := by nlinarith
    have := inH_x_nonneg hc
    linarith

/-- Replacing the right argument of a positive cross product by a
parallel half-plane point keeps it positive. -/
theorem parTransRight {u v w : point α} (hv : inH v) (hw : inH w)
    (hvw : point.cross v w = 0) (huv : 0 < point.cross u v) :
    0 < point.cross u w := by
  have depx := cross_dep_x u v w
  have depy := cross_dep_y u v w
  have hwu := cross_add_anticomm w u
  have keyx : point.cross u v * w.x = point.cross u w * v.x := by
    linear_combination depx - u.x * hvw - v.x * hwu
  have keyy : point.cross u v * w.y = point.cross u w * v.y := by
    linear_combination depy - u.y * hvw - v.y * hwu
  rcases hv with hvx | ⟨hvx, hvy⟩
  · -- v.x > 0; then w.x > 0 as well
    have hwx : 0 < w.x := by
      rcases hw with hwx | ⟨hwx, hwy⟩
      · exact hwx
      · -- w on the y axis: cross v w = v.x * w.y > 0, contradicting parallelism
        exfalso
        have : point.cross v w = v.x * w.y := by
          simp [point.cross, hwx]
        nlinarith
    nlinarith
  · -- v on the y axis: cross v w = -v.y * w.x = 0 forces w.x = 0, w.y > 0
    have hwx : w.x = 0 := by
      have : point.cross v w = -(v.y * w.x) := by
        simp [point.cross, hvx]
      have h0 : v.y * w.x = 0 := by linarith [this ▸ hvw]
      rcases mul_eq_zero.mp h0 with h | h
      · exact absurd h (ne_of_gt hvy)
      · exact h
    have hwy : 0 < w.y := by
      rcases hw with hw2 | ⟨_, hwy⟩
      · exact absurd hwx (ne_of_gt hw2)
      · exact hwy
    nlinarith

/-- Parallelism through a nonzero middle vector is transitive. -/
theorem parPar {u v w : point α} (hv : v ≠ pzero)
    (huv : point.cross u v = 0) (hvw : point.cross v w = 0) :
    point.cross u w = 0 := by
  have depx := cross_dep_x u v w
  have depy := cross_dep_y u v w
  have hx : point.cross w u * v.x = 0 := by
    linear_combination depx - w.x * huv - u.x * hvw
  have hy : point.cross w u * v.y = 0 := by
    linear_combination depy - w.y * huv - u.y * hvw
  have hwu : point.cross w u = 0 := by
    by_contra hne
    have hvx : v.x = 0 := by
      rcases mul_eq_zero.mp hx with h | h
      · exact absurd h hne
      · exact h
    have hvy : v.y = 0 := by
      rcases mul_eq_zero.mp hy with h | h
      · exact absurd h hne
      · exact h
    exact hv (by cases v; simp_all [pzero])
  rw [cross_anticomm, hwu, neg_zero]

end Geometry

end CPU

namespace CPU

section OrderFacts

variable {α : Type} [LinearOrderedCommRing α]

theorem point_sub_x (a b : point α) : (a - b).x = a.x - b.x := rfl

theorem point_sub_y (a b : point α) : (a - b).y = a.y - b.y := rfl

theorem point_add_x (a b : point α) : (a + b).x = a.x + b.x := rfl

theorem point_add_y (a b : point α) : (a + b).y = a.y + b.y := rfl

theorem sub_self_pzero (p : point α) : p - p = pzero := by
  cases p with
  | mk px py =>
    show point.mk (px - px) (py - py) = pzero
    rw [sub_self, sub_self]
    rfl

theorem sub_pzero_eq (p : point α) : p - pzero = p := by
  cases p with
  | mk px py =>
    show point.mk (px - 0) (py - 0) = point.mk px py
    rw [sub_zero, sub_zero]

theorem add_sub_cancel_point (a b : point α) : a + (b - a) = b := by
  cases a with
  | mk ax ay =>
    cases b with
    | mk bx by2 =>
      show point.mk (ax + (bx - ax)) (ay + (by2 - ay)) = point.mk bx by2
      rw [add_sub_cancel, add_sub_cancel]

theorem ltLex_irrefl (u : point α) : ¬ LtLex u u := by
  simp [LtLex]

theorem leLex_ltLex_trans {a b c : point α} (h1 : ¬ LtLex b a) (h2 : LtLex b c) :
    LtLex a c := by
  simp only [LtLex, not_or, not_and, not_lt] at h1
  rcases h2 with h2 | ⟨h2e, h2y⟩
  · exact Or.inl (lt_of_le_of_lt h1.1 h2)
  · rcases lt_or_eq_of_le h1.1 with h | h
    · exact Or.inl (h.trans_le (le_of_eq h2e))
    · exact Or.inr ⟨h.trans h2e, lt_of_le_of_lt (h1.2 h.symm) h2y⟩

theorem ltLex_trans {a b c : point α} (h1 : LtLex a b) (h2 : LtLex b c) :
    LtLex a c := by
  rcases h1 with h1 | ⟨h1e, h1y⟩
  · rcases h2 with h2 | ⟨h2e, _⟩
    · exact Or.inl (h1.trans h2)
    · exact Or.inl (h1.trans_le (le_of_eq h2e))
  · rcases h2 with h2 | ⟨h2e, h2y⟩
    · exact Or.inl (lt_of_le_of_lt (le_of_eq h1e) h2)
    · exact Or.inr ⟨h1e.trans h2e, h1y.trans h2y⟩

theorem ltLexB_false_iff (u v : point α) : ltLexB u v = false ↔ ¬ LtLex u v := by
  rw [← ltLexB_eq_true_iff]
  cases h : ltLexB u v <;> simp

/-- The comparator of grahamScan's sort is asymmetric (for every pair of
points, at most one direction holds). -/
theorem compLtB_asymm {u v : point α} (h : compLtB u v = true) :
    compLtB v u = false := by
  have hanti : point.cross v u = -point.cross u v := cross_anticomm v u
  unfold compLtB at h ⊢
  split_ifs at h ⊢ <;> simp_all <;> linarith

/-- A sorted adjacent pair with nonzero cross product has positive cross
product in list order. -/
theorem compLtB_false_cross_pos {u v : point α} (h : compLtB v u = false)
    (hne : point.cross u v ≠ 0) : 0 < point.cross u v := by
  have h2 : point.cross v u ≠ 0 := by
    rw [cross_anticomm]
    simpa using hne
  unfold compLtB at h
  rw [if_pos h2] at h
  have h3 : ¬ (0 < point.cross v u) := by simpa using h
  have h4 : point.cross v u < 0 := lt_of_le_of_ne (not_lt.mp h3) h2
  have := cross_anticomm u v
  linarith

/-- Any half-plane point sorts strictly after the origin. -/
theorem compLtB_pzero_inH {q : point α} (hq : inH q) : compLtB pzero q = true := by
  have hc : point.cross pzero q = 0 := cross_pzero_left q
  unfold compLtB
  rw [if_neg (by simpa using hc)]
  rcases hq with hq | ⟨hqx, hqy⟩
  · rw [if_pos (by simpa [pzero] using ne_of_lt hq)]
    simpa [pzero] using hq
  · rw [if_neg (by simp [pzero, hqx])]
    simpa [pzero] using hqy

/-- Chain-sortedness with respect to a strict comparator c: no adjacent
pair is strictly decreasing.  This is exactly the guarantee std::sort
gives about adjacent elements. -/
def chainLe (l : List (point α)) : Prop :=
  List.Chain' (fun a b => compLtB b a = false) l

/-- The head of insertC is the inserted element or the old head. -/
theorem insertC_head (c : point α → point α → Bool) (x : point α) :
    ∀ l : List (point α), (insertC c x l).head? = some x ∨
      (∃ hd t, l = hd :: t ∧ c hd x = true ∧ (insertC c x l).head? = some hd) := by
  intro l
  cases l with
  | nil => exact Or.inl rfl
  | cons h t =>
    by_cases hc : c h x = true
    · exact Or.inr ⟨h, t, rfl, hc, by simp [insertC, hc]⟩
    · exact Or.inl (by simp [insertC, hc])

theorem chainLe_insertC (x : point α) :
    ∀ l : List (point α), chainLe l → chainLe (insertC compLtB x l) := by
  intro l
  induction l with
  | nil =>
    intro _
    exact List.chain'_singleton x
  | cons h t ih =>
    intro hch
    have hpair := (List.chain'_cons'.mp hch).1
    have htail : chainLe t := (List.chain'_cons'.mp hch).2
    by_cases hc : compLtB h x = true
    · have : insertC compLtB x (h :: t) = h :: insertC compLtB x t := by
        simp [insertC, hc]
      rw [this]
      refine List.chain'_cons'.mpr ⟨?_, ih htail⟩
      intro y hy
      rcases insertC_head compLtB x t with hh | ⟨hd, t2, ht, hcd, hh⟩
      · rw [hh] at hy
        have hyy : x = y := by simpa using hy
        subst hyy
        exact compLtB_asymm hc
      · rw [hh] at hy
        have hyy : hd = y := by simpa using hy
        subst hyy
        exact hpair hd (by simp [ht])
    · have : insertC compLtB x (h :: t) = x :: h :: t := by
        simp [insertC, hc]
      rw [this]
      refine List.chain'_cons'.mpr ⟨?_, hch⟩
      intro y hy
      have hyy : h = y := by simpa using hy
      subst hyy
      simpa using hc

theorem chainLe_sortC : ∀ l : List (point α), chainLe (sortC compLtB l) := by
  intro l
  induction l with
  | nil => exact List.chain'_nil
  | cons h t ih => exact chainLe_insertC h (sortC compLtB t) ih

theorem minVal_mem : ∀ (t : List (point α)) (x : point α), minVal x t ∈ x :: t := by
  intro t
  induction t with
  | nil => intro x; exact List.mem_singleton.mpr rfl
  | cons b t2 ih =>
    intro x
    by_cases hc : ltLexB b x = true
    · have hstep : minVal x (b :: t2) = minVal b t2 := by
        show minVal (if ltLexB b x = true then b else x) t2 = minVal b t2
        rw [if_pos hc]
      rw [hstep]
      rcases List.mem_cons.mp (ih b) with h | h
      · rw [h]
        exact List.mem_cons_of_mem x (List.mem_cons_self b t2)
      · exact List.mem_cons_of_mem x (List.mem_cons_of_mem b h)
    · have hstep : minVal x (b :: t2) = minVal x t2 := by
        show minVal (if ltLexB b x = true then b else x) t2 = minVal x t2
        rw [if_neg hc]
      rw [hstep]
      rcases List.mem_cons.mp (ih x) with h | h
      · rw [h]
        exact List.mem_cons_self x (b :: t2)
      · exact List.mem_cons_of_mem x (List.mem_cons_of_mem b h)

theorem minVal_not_lt : ∀ (t : List (point α)) (x q : point α),
    q ∈ x :: t → ¬ LtLex q (minVal x t) := by
  intro t
  induction t with
  | nil =>
    intro x q hq
    rw [List.mem_singleton.mp hq]
    exact ltLex_irrefl x
  | cons b t2 ih =>
    intro x q hq
    by_cases hc : ltLexB b x = true
    · have hstep : minVal x (b :: t2) = minVal b t2 := by
        show minVal (if ltLexB b x = true then b else x) t2 = minVal b t2
        rw [if_pos hc]
      rw [hstep]
      have hbx : LtLex b x := (ltLexB_eq_true_iff b x).mp hc
      rcases List.mem_cons.mp hq with hq1 | hq0
      · intro hcon
        rw [hq1] at hcon
        exact ih b b (List.mem_cons_self b t2) (ltLex_trans hbx hcon)
      · rcases List.mem_cons.mp hq0 with hq1 | hq2
        · rw [hq1]
          exact ih b b (List.mem_cons_self b t2)
        · exact ih b q (List.mem_cons_of_mem b hq2)
    · have hc2 : ltLexB b x = false := by
        cases h2 : ltLexB b x
        · rfl
        · exact absurd h2 hc
      have hstep : minVal x (b :: t2) = minVal x t2 := by
        show minVal (if ltLexB b x = true then b else x) t2 = minVal x t2
        rw [if_neg hc]
      rw [hstep]
      have hbx : ¬ LtLex b x := (ltLexB_false_iff b x).mp hc2
      rcases List.mem_cons.mp hq with hq1 | hq0
      · rw [hq1]
        exact ih x x (List.mem_cons_self x t2)
      · rcases List.mem_cons.mp hq0 with hq1 | hq2
        · intro hcon
          rw [hq1] at hcon
          exact ih x x (List.mem_cons_self x t2) (leLex_ltLex_trans hbx hcon)
        · exact ih x q (List.mem_cons_of_mem x hq2)

/-- Translating a point that is not lexicographically below the minimum
lands it on the origin or in the half plane. -/
theorem notLt_sub_inZH {q mn : point α} (h : ¬ LtLex q mn) : inZH (q - mn) := by
  simp only [LtLex, not_or, not_and, not_lt] at h
  rcases lt_or_eq_of_le h.1 with hx | hx
  · exact Or.inr (Or.inl (by rw [point_sub_x]; linarith))
  · rcases lt_or_eq_of_le (h.2 hx.symm) with hy | hy
    · refine Or.inr (Or.inr ⟨by rw [point_sub_x]; linarith, ?_⟩)
      rw [point_sub_y]
      linarith
    · refine Or.inl ?_
      cases q with
      | mk qx qy =>
        cases mn with
        | mk mx my =>
          simp only at hx hy
          show point.mk (qx - mx) (qy - my) = pzero
          rw [← hx, ← hy, sub_self, sub_self]
          rfl

end OrderFacts

end CPU

namespace CPU

section CompactFacts

variable {α : Type} [LinearOrderedCommRing α]

/-- Strictly counter-clockwise adjacent pairs. -/
def CPos (l : List (point α)) : Prop :=
  List.Chain' (fun a b => 0 < point.cross a b) l

theorem compactGo_ne_nil : ∀ (t : List (point α)) (u : point α),
    compactGo u t ≠ [] := by
  intro t
  induction t with
  | nil => intro u h; exact List.noConfusion h
  | cons v t2 ih =>
    intro u
    have heq : compactGo u (v :: t2) =
        if point.cross u v = 0 then compactGo v t2 else u :: compactGo v t2 := rfl
    by_cases hc : point.cross u v = 0
    · rw [heq, if_pos hc]
      exact ih v
    · rw [heq, if_neg hc]
      intro h
      exact List.noConfusion h

theorem compactGo_length_le : ∀ (t : List (point α)) (u : point α),
    (compactGo u t).length ≤ t.length + 1 := by
  intro t
  induction t with
  | nil => intro u; exact le_refl 1
  | cons v t2 ih =>
    intro u
    have heq : compactGo u (v :: t2) =
        if point.cross u v = 0 then compactGo v t2 else u :: compactGo v t2 := rfl
    by_cases hc : point.cross u v = 0
    · rw [heq, if_pos hc]
      exact le_trans (ih v) (by simp)
    · rw [heq, if_neg hc]
      simpa using ih v

/-- After a half-plane element, a chain-sorted list of origin-or-half-
plane points stays in the half plane: the origin sorts strictly before
every half-plane point. -/
theorem chainLe_inH_tail : ∀ (l : List (point α)) (u : point α),
    chainLe (u :: l) → inH u → (∀ q ∈ l, inZH q) → ∀ q ∈ l, inH q := by
  intro l
  induction l with
  | nil => intro u _ _ _ q hq; cases hq
  | cons b l2 ih =>
    intro u hch hu hZH q hq
    have hpair : compLtB b u = false := (List.chain'_cons.mp hch).1
    have htail : chainLe (b :: l2) := (List.chain'_cons.mp hch).2
    have hbH : inH b := by
      rcases hZH b (List.mem_cons_self b l2) with hb0 | hbH
      · exfalso
        rw [hb0, compLtB_pzero_inH hu] at hpair
        exact Bool.noConfusion hpair
      · exact hbH
    rcases List.mem_cons.mp hq with hq1 | hq2
    · rw [hq1]; exact hbH
    · exact ih b htail hbH (fun r hr => hZH r (List.mem_cons_of_mem b hr)) q hq2

/-- The collapse loop on a chain-sorted list of origin-or-half-plane
points: the emitted sequence is strictly angle-increasing, all its
elements lie in the half plane as soon as there are at least two of
them, and its first element is parallel to the starting candidate. -/
theorem compactGo_spec : ∀ (t : List (point α)) (u : point α),
    (∀ q ∈ u :: t, inZH q) → chainLe (u :: t) →
    CPos (compactGo u t) ∧
    (2 ≤ (compactGo u t).length → ∀ q ∈ compactGo u t, inH q) ∧
    (∀ w, (compactGo u t).head? = some w →
      point.cross u w = 0 ∧ (inH u → inH w)) := by
  intro t
  induction t with
  | nil =>
    intro u _ _
    refine ⟨List.chain'_singleton u, ?_, ?_⟩
    · intro h
      exact absurd h (by simp [compactGo])
    · intro w hw
      have : u = w := by simpa [compactGo] using hw
      rw [← this]
      exact ⟨cross_self u, fun h => h⟩
  | cons v t2 ih =>
    intro u hZH hch
    have hpair : compLtB v u = false := (List.chain'_cons.mp hch).1
    have htail : chainLe (v :: t2) := (List.chain'_cons.mp hch).2
    have hZH2 : ∀ q ∈ v :: t2, inZH q :=
      fun q hq => hZH q (List.mem_cons_of_mem u hq)
    have IH := ih v hZH2 htail
    have heq : compactGo u (v :: t2) =
        if point.cross u v = 0 then compactGo v t2 else u :: compactGo v t2 := rfl
    by_cases hc : point.cross u v = 0
    · rw [heq, if_pos hc]
      refine ⟨IH.1, IH.2.1, ?_⟩
      intro w hw
      have hIH := IH.2.2 w hw
      by_cases hv : v = pzero
      · have hu_not : ¬ inH u := by
          intro hu
          rw [hv, compLtB_pzero_inH hu] at hpair
          exact Bool.noConfusion hpair
        have hu0 : u = pzero :=
          (hZH u (List.mem_cons_self u (v :: t2))).resolve_right hu_not
        refine ⟨by rw [hu0]; exact cross_pzero_left w, fun hu => absurd hu hu_not⟩
      · have hvH : inH v := (hZH2 v (List.mem_cons_self v t2)).resolve_left hv
        exact ⟨parPar hv hc hIH.1, fun _ => hIH.2 hvH⟩
    · rw [heq, if_neg hc]
      have hvne : v ≠ pzero := by
        intro h
        exact hc (by rw [h]; exact cross_pzero_right u)
      have hune : u ≠ pzero := by
        intro h
        exact hc (by rw [h]; exact cross_pzero_left v)
      have hvH : inH v := (hZH2 v (List.mem_cons_self v t2)).resolve_left hvne
      have huH : inH u := (hZH u (List.mem_cons_self u (v :: t2))).resolve_left hune
      have hcpos : 0 < point.cross u v := compLtB_false_cross_pos hpair hc
      obtain ⟨w, tw, hwt⟩ : ∃ w tw, compactGo v t2 = w :: tw := by
        cases hE : compactGo v t2 with
        | nil => exact absurd hE (compactGo_ne_nil t2 v)
        | cons w tw => exact ⟨w, tw, rfl⟩
      have hIH := IH.2.2 w (by rw [hwt]; rfl)
      have hwH : inH w := hIH.2 hvH
      have hcuw : 0 < point.cross u w := parTransRight hvH hwH hIH.1 hcpos
      refine ⟨?_, ?_, ?_⟩
      · refine List.chain'_cons'.mpr ⟨?_, IH.1⟩
        intro y hy
        rw [hwt] at hy
        have : w = y := by simpa using hy
        rw [← this]
        exact hcuw
      · intro _ q hq
        rcases List.mem_cons.mp hq with hq1 | hq2
        · rw [hq1]; exact huH
        · cases tw with
          | nil =>
            rw [hwt] at hq2
            have : q = w := by simpa using hq2
            rw [this]; exact hwH
          | cons w2 tw2 =>
            refine IH.2.1 (by rw [hwt]; simp) q hq2
      · intro w' hw'
        have : u = w' := by simpa using hw'
        rw [← this]
        exact ⟨cross_self u, fun h => h⟩

/-- In a strictly angle-increasing half-plane list, every element is
strictly counter-clockwise of the head. -/
theorem cpos_head_all : ∀ (t : List (point α)) (c : point α),
    CPos (c :: t) → inH c → (∀ q ∈ t, inH q) → ∀ q ∈ t, 0 < point.cross c q := by
  intro t
  induction t with
  | nil => intro c _ _ _ q hq; cases hq
  | cons b t2 ih =>
    intro c hch hc hH q hq
    have hcb : 0 < point.cross c b := (List.chain'_cons.mp hch).1
    have htail : CPos (b :: t2) := (List.chain'_cons.mp hch).2
    have hbH : inH b := hH b (List.mem_cons_self b t2)
    rcases List.mem_cons.mp hq with hq1 | hq2
    · rw [hq1]; exact hcb
    · have hqH : inH q := hH q (List.mem_cons_of_mem b hq2)
      have := ih b htail hbH (fun r hr => hH r (List.mem_cons_of_mem b hr)) q hq2
      exact transH hc hbH hqH hcb this

end CompactFacts

end CPU

namespace CPU

section SweepFacts

variable {α : Type} [LinearOrderedCommRing α]

theorem swapIdx_length (l : List (point α)) (i j : Nat) :
    (swapIdx l i j).length = l.length := by
  unfold swapIdx
  split
  · rw [List.length_set, List.length_set]
  · rfl

theorem swapIdx_getD_ne {l : List (point α)} {i j k : Nat} (hki : k ≠ i)
    (hkj : k ≠ j) (d : point α) : (swapIdx l i j).getD k d = l.getD k d := by
  unfold swapIdx
  split
  · rw [List.getD_eq_getElem?_getD, List.getD_eq_getElem?_getD,
      List.getElem?_set_ne (Ne.symm hkj), List.getElem?_set_ne (Ne.symm hki)]
  · rfl

theorem swapIdx_getD_right {l : List (point α)} {i j : Nat} (hi : i < l.length)
    (hj : j < l.length) (d : point α) :
    (swapIdx l i j).getD j d = l.getD i d := by
  have hgi : l.get? i = some (l.getD i d) := by
    rw [List.getD_eq_getElem?_getD, List.get?_eq_getElem?,
      List.getElem?_eq_getElem hi]
    rfl
  have hgj : l.get? j = some (l.getD j d) := by
    rw [List.getD_eq_getElem?_getD, List.get?_eq_getElem?,
      List.getElem?_eq_getElem hj]
    rfl
  simp only [swapIdx, hgi, hgj]
  rw [List.getD_eq_getElem?_getD,
    List.getElem?_set_self (by rw [List.length_set]; exact hj)]
  rfl

/-- The pop loop returns without ever reading ps[-1], provided the pair
(p, v) tracks the stack cells and the current point is strictly
clockwise of the first compacted point (so the test fails at s = 1,
where p is the origin and v is the first compacted point). -/
theorem sweepPop_ok (junk : point α) (arr : List (point α)) (cur c0 : point α)
    (h0 : arr.getD 0 junk = pzero) (h1 : arr.getD 1 junk = c0)
    (hcur : point.cross cur c0 < 0) :
    ∀ (s : Nat), 1 ≤ s → ∀ (p v : point α), p = arr.getD (s - 1) junk →
      v = arr.getD s junk - arr.getD (s - 1) junk →
      ∃ s1 p1 v1, sweepPop junk arr cur s p v = .ok (s1, p1, v1) ∧
        1 ≤ s1 ∧ s1 ≤ s ∧ p1 = arr.getD (s1 - 1) junk ∧
        v1 = arr.getD s1 junk - arr.getD (s1 - 1) junk := by
  intro s
  induction s with
  | zero => intro h; omega
  | succ t iht =>
    intro _ p v hp hv
    by_cases hcond : 0 ≤ point.cross (cur - p) v
    · cases t with
      | zero =>
        exfalso
        rw [hp, hv] at hcond
        simp only [Nat.sub_self] at hcond
        rw [h0, h1, sub_pzero_eq, sub_pzero_eq] at hcond
        exact absurd hcond (not_le.mpr hcur)
      | succ r =>
        have hrec := iht (by omega) (arr.getD r junk)
          (arr.getD (r + 1) junk - arr.getD r junk)
          (by rw [Nat.add_sub_cancel]) (by rw [Nat.add_sub_cancel])
        obtain ⟨s1, p1, v1, heq, h1s, hle, hp1, hv1⟩ := hrec
        refine ⟨s1, p1, v1, ?_, h1s, by omega, hp1, hv1⟩
        have hstep0 : sweepPop junk arr cur (r + 1 + 1) p v =
            if 0 ≤ point.cross (cur - p) v then
              sweepPop junk arr cur (r + 1) (arr.getD r junk)
                (arr.getD (r + 1) junk - arr.getD r junk)
            else .ok (r + 1 + 1, p, v) := rfl
        rw [hstep0, if_pos hcond, heq]
    · refine ⟨t + 1, p, v, ?_, by omega, le_refl _, hp, hv⟩
      cases t with
      | zero =>
        have hstep0 : sweepPop junk arr cur 1 p v =
            if 0 ≤ point.cross (cur - p) v then Except.error Err.oobRead
            else .ok (1, p, v) := rfl
        rw [hstep0, if_neg hcond]
      | succ r =>
        have hstep0 : sweepPop junk arr cur (r + 1 + 1) p v =
            if 0 ≤ point.cross (cur - p) v then
              sweepPop junk arr cur (r + 1) (arr.getD r junk)
                (arr.getD (r + 1) junk - arr.getD r junk)
            else .ok (r + 1 + 1, p, v) := rfl
        rw [hstep0, if_neg hcond]

/-- The sweep loop runs to completion: with the invariant that (p, v)
track the stack cells, positions 0 and 1 hold the origin and the first
compacted point, and the yet-unvisited positions hold the strictly
angle-increasing compacted points, no iteration ever errors. -/
theorem sweepGo_ok (junk : point α) (Carr : List (point α)) (c0 : point α)
    (m : Nat)
    (hGeo : ∀ jdx, 2 ≤ jdx → jdx < m → 0 < point.cross c0 (Carr.getD jdx junk))
    (hmle : m ≤ Carr.length) :
    ∀ (fuel i : Nat) (arr : List (point α)) (s : Nat) (p v : point α),
      2 ≤ i → 1 ≤ s → s < i → 1 ≤ fuel → m + 2 ≤ fuel + i →
      arr.length = Carr.length →
      arr.getD 0 junk = pzero → arr.getD 1 junk = c0 →
      (∀ jdx, i ≤ jdx → arr.getD jdx junk = Carr.getD jdx junk) →
      p = arr.getD (s - 1) junk →
      v = arr.getD s junk - arr.getD (s - 1) junk →
      ∃ r, sweepGo junk fuel i m arr s p v = .ok r := by
  intro fuel
  induction fuel with
  | zero => intro i arr s p v _ _ _ hf1; omega
  | succ f ihf =>
    intro i arr s p v hi2 hs1 hsi _ hfm hlen h0 h1 hfut hp hv
    by_cases him : m ≤ i
    · exact ⟨(arr, s), by simp [sweepGo, him]⟩
    · push_neg at him
      have hcur_eq : arr.getD i junk = Carr.getD i junk := hfut i (le_refl i)
      have hgeo : 0 < point.cross c0 (Carr.getD i junk) := hGeo i hi2 him
      have hcurneg : point.cross (arr.getD i junk) c0 < 0 := by
        rw [hcur_eq, cross_anticomm]
        linarith
      obtain ⟨s1, p1, v1, hpop, hs11, hs1le, hp1, hv1⟩ :=
        sweepPop_ok junk arr (arr.getD i junk) c0 h0 h1 hcurneg s hs1 p v hp hv
      have hi_lt : i < arr.length := by rw [hlen]; omega
      have hs2_lt : s1 + 1 < arr.length := by rw [hlen]; omega
      have hppv : p1 + v1 = arr.getD s1 junk := by
        rw [hp1, hv1]
        exact add_sub_cancel_point _ _
      obtain ⟨r, hr⟩ := ihf (i + 1) (swapIdx arr i (s1 + 1)) (s1 + 1) (p1 + v1)
        (arr.getD i junk - (p1 + v1))
        (by omega) (by omega) (by omega) (by omega) (by omega)
        (by rw [swapIdx_length]; exact hlen)
        (by rw [swapIdx_getD_ne (by omega) (by omega)]; exact h0)
        (by rw [swapIdx_getD_ne (by omega) (by omega)]; exact h1)
        (by
          intro jdx hjdx
          rw [swapIdx_getD_ne (by omega) (by omega)]
          exact hfut jdx (by omega))
        (by
          rw [Nat.add_sub_cancel, swapIdx_getD_ne (by omega) (by omega)]
          exact hppv)
        (by
          rw [Nat.add_sub_cancel, swapIdx_getD_right hi_lt hs2_lt,
            swapIdx_getD_ne (by omega) (by omega)]
          rw [hppv])
      refine ⟨r, ?_⟩
      have hnotle : ¬ m ≤ i := by omega
      have hstep0 : sweepGo junk (f + 1) i m arr s p v =
          if m ≤ i then Except.ok (arr, s) else
            match sweepPop junk arr (arr.getD i junk) s p v with
            | .error e => .error e
            | .ok (s1, p1, v1) =>
              sweepGo junk f (i + 1) m (swapIdx arr i (s1 + 1)) (s1 + 1)
                (p1 + v1) (arr.getD i junk - (p1 + v1)) := rfl
      rw [hstep0, if_neg hnotle, hpop]
      exact hr

end SweepFacts

end CPU

namespace CPU

section C10

variable {α : Type} [LinearOrderedCommRing α]

theorem swapIdx_getD_left {l : List (point α)} {i j : Nat} (hi : i < l.length)
    (hj : j < l.length) (d : point α) :
    (swapIdx l i j).getD i d = l.getD j d := by
  by_cases hij : i = j
  · subst hij
    exact swapIdx_getD_right hi hi d
  · have hgi : l.get? i = some (l.getD i d) := by
      rw [List.getD_eq_getElem?_getD, List.get?_eq_getElem?,
        List.getElem?_eq_getElem hi]
      rfl
    have hgj : l.get? j = some (l.getD j d) := by
      rw [List.getD_eq_getElem?_getD, List.get?_eq_getElem?,
        List.getElem?_eq_getElem hj]
      rfl
    simp only [swapIdx, hgi, hgj]
    rw [List.getD_eq_getElem?_getD, List.getElem?_set_ne (Ne.symm hij),
      List.getElem?_set_self hi]
    rfl

theorem getD_mem {l : List (point α)} {n : Nat} (h : n < l.length) (d : point α) :
    l.getD n d ∈ l := by
  rw [List.getD_eq_getElem?_getD, List.getElem?_eq_getElem h]
  exact List.getElem_mem h

/-- C10: the pop loop of grahamScan's sweep never reaches the read
ps[-1]: the stack index never drops below 1 because at s = 1 the point
below the top is the translated origin, the direction v is the first
compacted point, and the compacted points have strictly increasing polar
angle, so the pop test cross(cur - p, v) >= 0 is false there.
Consequently grahamScan completes normally on every nonempty input
(grahamScan is the only engine with such a loop, and Err.oobRead is its
only possible error on nonempty input). -/
theorem c10_grahamScan_total (junk : point α) (l : List (point α))
    (hne : l ≠ []) : ∃ r, grahamScan junk l = .ok r := by
  match l with
  | [] => exact absurd rfl hne
  | x :: xs =>
    set mn := minVal x xs with hmn_def
    set j := (x :: xs).findIdx (fun p => decide (p = mn)) with hj_def
    set l1 := swapIdx (x :: xs) 0 j with hl1_def
    set l2 := l1.map (fun p => p - mn) with hl2_def
    set st := sortC compLtB l2.tail with hst_def
    set cpt := (compact st : List (point α)) with hcpt_def
    set m := 1 + cpt.length with hm_def
    set z := l2.headD junk with hz_def
    set arr := z :: cpt ++ (z :: st).drop m with harr_def
    have hmn_mem : mn ∈ x :: xs := minVal_mem xs x
    have hjlt : j < (x :: xs).length := by
      rw [hj_def]
      exact List.findIdx_lt_length_of_exists ⟨mn, hmn_mem, by simp⟩
    have hl1_len : l1.length = (x :: xs).length := by
      rw [hl1_def]
      exact swapIdx_length _ 0 j
    have hl1_ne : l1 ≠ [] := by
      intro hcon
      rw [hcon] at hl1_len
      simp at hl1_len
    obtain ⟨h1, t1, hl1e⟩ : ∃ h1 t1, l1 = h1 :: t1 := by
      cases hc : l1 with
      | nil => exact absurd hc hl1_ne
      | cons a b => exact ⟨a, b, rfl⟩
    have hl1_head : l1.getD 0 junk = mn := by
      rw [hl1_def]
      rw [swapIdx_getD_left (by simp) hjlt junk]
      rw [List.getD_eq_getElem?_getD, List.getElem?_eq_getElem hjlt]
      have hfi := @List.findIdx_getElem _ (fun p => decide (p = mn)) (x :: xs) hjlt
      simpa using hfi
    have hh1 : h1 = mn := by
      have h2 := hl1_head
      rw [hl1e] at h2
      simpa using h2
    have harr0 : arr.getD 0 junk = pzero := by
      rw [harr_def, List.cons_append, List.getD_cons_zero, hz_def, hl2_def, hl1e, hh1]
      simp [sub_self_pzero]
    have hstZH : ∀ q ∈ st, inZH q := by
      intro q hq
      have hq2 : q ∈ l2.tail := ((sortC_perm compLtB l2.tail).mem_iff).mp
        (by rw [← hst_def]; exact hq)
      rw [hl2_def, hl1e] at hq2
      simp only [List.map_cons, List.tail_cons] at hq2
      obtain ⟨q0, hq0mem, hq0eq⟩ := List.mem_map.mp hq2
      rw [← hq0eq]
      apply notLt_sub_inZH
      apply minVal_not_lt xs x q0
      have hq0l1 : q0 ∈ l1 := by
        rw [hl1e]
        exact List.mem_cons_of_mem h1 hq0mem
      have := (swapIdx_perm (x :: xs) 0 j).mem_iff.mp (by rw [← hl1_def]; exact hq0l1)
      exact this
    have hstChain : chainLe st := by
      rw [hst_def]
      exact chainLe_sortC l2.tail
    have hgeo : ∀ jdx, 2 ≤ jdx → jdx < m →
        0 < point.cross (arr.getD 1 junk) (arr.getD jdx junk) := by
      intro jdx h2 hlt
      have hcl : 2 ≤ cpt.length := by omega
      obtain ⟨s1, st2, hste⟩ : ∃ s1 st2, st = s1 :: st2 := by
        cases hc : st with
        | nil =>
          exfalso
          have : cpt = [] := by rw [hcpt_def, hc]; rfl
          rw [this] at hcl
          simp at hcl
        | cons a b => exact ⟨a, b, rfl⟩
      have hcg := compactGo_spec st2 s1
        (fun q hq => hstZH q (by rw [hste]; exact hq))
        (by rw [← hste]; exact hstChain)
      have hcpt_eq : cpt = compactGo s1 st2 := by
        rw [hcpt_def, hste]
        rfl
      obtain ⟨c0v, crest, hce⟩ : ∃ c0v crest, cpt = c0v :: crest := by
        cases hc : cpt with
        | nil =>
          exfalso
          rw [hc] at hcl
          simp at hcl
        | cons a b => exact ⟨a, b, rfl⟩
      have harr_idx : ∀ k, k < cpt.length → arr.getD (k + 1) junk = cpt.getD k junk := by
        intro k hk
        rw [harr_def, List.cons_append, List.getD_cons_succ, List.getD_eq_getElem?_getD,
          List.getElem?_append_left (by simpa using hk), ← List.getD_eq_getElem?_getD]
      have h1v : arr.getD 1 junk = c0v := by
        have := harr_idx 0 (by omega)
        rw [this, hce]
        rfl
      have hjdxv : arr.getD jdx junk = cpt.getD (jdx - 1) junk := by
        have hj1 : jdx = (jdx - 1) + 1 := by omega
        conv_lhs => rw [hj1]
        rw [harr_idx (jdx - 1) (by omega)]
      have hclen : cpt.length = crest.length + 1 := by
        rw [hce]
        simp
      have hmem : cpt.getD (jdx - 1) junk ∈ crest := by
        rw [hce]
        have hj1 : jdx - 1 = (jdx - 2) + 1 := by omega
        rw [hj1, List.getD_cons_succ]
        exact getD_mem (by omega) junk
      have hallH : ∀ q ∈ cpt, inH q := by
        intro q hq
        refine hcg.2.1 ?_ q (by rw [← hcpt_eq]; exact hq)
        rw [← hcpt_eq]
        exact hcl
      have hc0H : inH c0v := hallH c0v (by rw [hce]; exact List.mem_cons_self c0v crest)
      have hcrestH : ∀ q ∈ crest, inH q :=
        fun q hq => hallH q (by rw [hce]; exact List.mem_cons_of_mem c0v hq)
      have hcpos : CPos (c0v :: crest) := by
        rw [← hce, hcpt_eq]
        exact hcg.1
      have hfinal := cpos_head_all crest c0v hcpos hc0H hcrestH _ hmem
      rw [h1v, hjdxv]
      exact hfinal
    have hmlen : m ≤ arr.length := by
      rw [harr_def]
      simp only [List.length_cons, List.length_append]
      omega
    obtain ⟨r, hr⟩ := sweepGo_ok junk arr (arr.getD 1 junk) m hgeo hmlen m 2 arr 1
      (arr.getD 0 junk) (arr.getD 1 junk - arr.getD 0 junk)
      (le_refl 2) (le_refl 1) (by omega) (by omega) (by omega) rfl harr0 rfl
      (fun jdx _ => rfl) rfl rfl
    obtain ⟨arr2, s2⟩ := r
    refine ⟨(arr2.map (fun p => p + mn), s2 + 1), ?_⟩
    have hunf : grahamScan junk (x :: xs) =
        (match sweepGo junk m 2 m arr 1 (arr.getD 0 junk)
            (arr.getD 1 junk - arr.getD 0 junk) with
        | Except.error e => Except.error e
        | Except.ok (a2, s) => Except.ok (a2.map (fun p => p + mn), s + 1)) := rfl
    rw [hunf, hr]

/-- Witness for c10_grahamScan_total at a concrete input. -/
theorem c10_grahamScan_total_witness :
    ∃ r, grahamScan (pzero : point ℤ) [⟨0, 0⟩, ⟨1, 0⟩, ⟨0, 1⟩] = .ok r :=
  c10_grahamScan_total pzero [⟨0, 0⟩, ⟨1, 0⟩, ⟨0, 1⟩] (by simp)

end C10

end CPU

namespace CPU

section C7Geometry

variable {α : Type} [LinearOrderedCommRing α]

theorem maxVal_mem : ∀ (t : List (point α)) (x : point α), maxVal x t ∈ x :: t := by
  intro t
  induction t with
  | nil => intro x; exact List.mem_singleton.mpr rfl
  | cons b t2 ih =>
    intro x
    by_cases hc : ltLexB x b = true
    · have hstep : maxVal x (b :: t2) = maxVal b t2 := by
        show maxVal (if ltLexB x b = true then b else x) t2 = maxVal b t2
        rw [if_pos hc]
      rw [hstep]
      rcases List.mem_cons.mp (ih b) with h | h
      · rw [h]
        exact List.mem_cons_of_mem x (List.mem_cons_self b t2)
      · exact List.mem_cons_of_mem x (List.mem_cons_of_mem b h)
    · have hstep : maxVal x (b :: t2) = maxVal x t2 := by
        show maxVal (if ltLexB x b = true then b else x) t2 = maxVal x t2
        rw [if_neg hc]
      rw [hstep]
      rcases List.mem_cons.mp (ih x) with h | h
      · rw [h]
        exact List.mem_cons_self x (b :: t2)
      · exact List.mem_cons_of_mem x (List.mem_cons_of_mem b h)

theorem ltLex_leLex_trans {a b c : point α} (h1 : LtLex a b) (h2 : ¬ LtLex c b) :
    LtLex a c := by
  simp only [LtLex, not_or, not_and, not_lt] at h2
  rcases h1 with h1 | ⟨h1e, h1y⟩
  · rcases lt_or_eq_of_le h2.1 with h | h
    · exact Or.inl (h1.trans h)
    · exact Or.inl (by rw [← h]; exact h1)
  · rcases lt_or_eq_of_le h2.1 with h | h
    · exact Or.inl (by rw [h1e]; exact h)
    · exact Or.inr ⟨h1e.trans h, lt_of_lt_of_le h1y (h2.2 h.symm)⟩

theorem maxVal_not_lt : ∀ (t : List (point α)) (x q : point α),
    q ∈ x :: t → ¬ LtLex (maxVal x t) q := by
  intro t
  induction t with
  | nil =>
    intro x q hq
    rw [List.mem_singleton.mp hq]
    exact ltLex_irrefl x
  | cons b t2 ih =>
    intro x q hq
    by_cases hc : ltLexB x b = true
    · have hstep : maxVal x (b :: t2) = maxVal b t2 := by
        show maxVal (if ltLexB x b = true then b else x) t2 = maxVal b t2
        rw [if_pos hc]
      rw [hstep]
      have hxb : LtLex x b := (ltLexB_eq_true_iff x b).mp hc
      rcases List.mem_cons.mp hq with hq1 | hq0
      · intro hcon
        rw [hq1] at hcon
        exact ih b b (List.mem_cons_self b t2) (ltLex_trans hcon hxb)
      · rcases List.mem_cons.mp hq0 with hq1 | hq2
        · rw [hq1]
          exact ih b b (List.mem_cons_self b t2)
        · exact ih b q (List.mem_cons_of_mem b hq2)
    · have hc2 : ltLexB x b = false := by
        cases h2 : ltLexB x b
        · rfl
        · exact absurd h2 hc
      have hstep : maxVal x (b :: t2) = maxVal x t2 := by
        show maxVal (if ltLexB x b = true then b else x) t2 = maxVal x t2
        rw [if_neg hc]
      rw [hstep]
      have hxb : ¬ LtLex x b := (ltLexB_false_iff x b).mp hc2
      rcases List.mem_cons.mp hq with hq1 | hq0
      · rw [hq1]
        exact ih x x (List.mem_cons_self x t2)
      · rcases List.mem_cons.mp hq0 with hq1 | hq2
        · intro hcon
          rw [hq1] at hcon
          exact ih x x (List.mem_cons_self x t2) (ltLex_leLex_trans hcon hxb)
        · exact ih x q (List.mem_cons_of_mem x hq2)

theorem ltLex_total {u v : point α} (h : u ≠ v) : LtLex u v ∨ LtLex v u := by
  rcases lt_trichotomy u.x v.x with hx | hx | hx
  · exact Or.inl (Or.inl hx)
  · rcases lt_trichotomy u.y v.y with hy | hy | hy
    · exact Or.inl (Or.inr ⟨hx, hy⟩)
    · exact absurd (by cases u; cases v; simp_all) h
    · exact Or.inr (Or.inr ⟨hx.symm, hy⟩)
  · exact Or.inr (Or.inl hx)

/-- The x-component identity behind the triangle test against the
far point: on the line through L and R the first isOuterior cross
product degenerates. -/
theorem crossKey1x (L R f p : point α) :
    (R.x - L.x) * point.cross (p - f) (R - f) =
      (p.x - R.x) * point.cross (R - L) (L - f) -
      (R.x - f.x) * point.cross (R - L) (p - L) := by
  simp only [point.cross, point_sub_x, point_sub_y]
  ring

theorem crossKey2x (L R f p : point α) :
    (R.x - L.x) * point.cross (L - f) (p - f) =
      -((p.x - L.x) * point.cross (R - L) (L - f)) +
      (L.x - f.x) * point.cross (R - L) (p - L) := by
  simp only [point.cross, point_sub_x, point_sub_y]
  ring

theorem crossKey1y (L R f p : point α) :
    (R.y - L.y) * point.cross (p - f) (R - f) =
      (p.y - R.y) * point.cross (R - L) (L - f) -
      (R.y - f.y) * point.cross (R - L) (p - L) := by
  simp only [point.cross, point_sub_x, point_sub_y]
  ring

theorem crossKey2y (L R f p : point α) :
    (R.y - L.y) * point.cross (L - f) (p - f) =
      -((p.y - L.y) * point.cross (R - L) (L - f)) +
      (L.y - f.y) * point.cross (R - L) (p - L) := by
  simp only [point.cross, point_sub_x, point_sub_y]
  ring

/-- A point exactly on the line L-R and lexicographically between L and
R is never isOuterior with respect to a far point strictly off the
line: both cross products of the triangle test are nonpositive. -/
theorem onLine_not_out {L R f p : point α} (hLR : LtLex L R)
    (hcol : point.cross (R - L) (p - L) = 0)
    (hpL : ¬ LtLex p L) (hpR : ¬ LtLex R p)
    (hdist : 0 < point.cross (R - L) (L - f)) :
    point.cross (p - f) (R - f) ≤ 0 ∧ point.cross (L - f) (p - f) ≤ 0 := by
  have k1x := crossKey1x L R f p
  have k2x := crossKey2x L R f p
  have k1y := crossKey1y L R f p
  have k2y := crossKey2y L R f p
  rw [hcol] at k1x k2x k1y k2y
  simp only [LtLex, not_or, not_and, not_lt] at hpL hpR
  rcases hLR with hx | ⟨hxe, hy⟩
  · -- L.x < R.x: p.x lies between them
    have hb1 : L.x ≤ p.x := hpL.1
    have hb2 : p.x ≤ R.x := hpR.1
    constructor
    · nlinarith [k1x]
    · nlinarith [k2x]
  · -- vertical line: p.x = L.x = R.x, p.y between L.y and R.y
    have hpx : p.x = L.x := by
      have hexp : point.cross (R - L) (p - L) = -((R.y - L.y) * (p.x - L.x)) := by
        simp only [point.cross, point_sub_x, point_sub_y, ← hxe]
        ring
      rw [hexp] at hcol
      have : (R.y - L.y) * (p.x - L.x) = 0 := by linarith
      rcases mul_eq_zero.mp this with h | h
      · exfalso; nlinarith
      · linarith
    have hb1 : L.y ≤ p.y := hpL.2 (by rw [hpx])
    have hb2 : p.y ≤ R.y := hpR.2 (by rw [hpx, hxe])
    constructor
    · nlinarith [k1y]
    · nlinarith [k2y]

/-- If both L and q lie on the degenerate line through L and R together
with f, every triangle-test cross product vanishes. -/
theorem onLine_par_zero {L R f q : point α} (hw : ¬ (R - L = pzero))
    (hf : point.cross (R - L) (L - f) = 0)
    (hq : point.cross (R - L) (q - L) = 0) :
    point.cross (q - f) (R - f) = 0 ∧ point.cross (L - f) (q - f) = 0 := by
  have k1x := crossKey1x L R f q
  have k2x := crossKey2x L R f q
  have k1y := crossKey1y L R f q
  have k2y := crossKey2y L R f q
  rw [hf, hq] at k1x k2x k1y k2y
  simp only [mul_zero, zero_mul, sub_zero, neg_zero, zero_add, add_zero] at k1x k2x k1y k2y
  have hcomp : R.x - L.x ≠ 0 ∨ R.y - L.y ≠ 0 := by
    by_contra hcon
    push_neg at hcon
    apply hw
    have hrepr : R - L = point.mk (R.x - L.x) (R.y - L.y) := rfl
    rw [hrepr, hcon.1, hcon.2]
    rfl
  rcases hcomp with h | h
  · constructor
    · rcases mul_eq_zero.mp k1x with h2 | h2
      · exact absurd h2 h
      · exact h2
    · rcases mul_eq_zero.mp k2x with h2 | h2
      · exact absurd h2 h
      · exact h2
  · constructor
    · rcases mul_eq_zero.mp k1y with h2 | h2
      · exact absurd h2 h
      · exact h2
    · rcases mul_eq_zero.mp k2y with h2 | h2
      · exact absurd h2 h
      · exact h2

end C7Geometry

end CPU

namespace CPU

section C7Infra

variable {α : Type} [LinearOrderedCommRing α]

theorem swapRangesList_getD_lt : ∀ (len : Nat) (l : List (point α)) (src dst k : Nat),
    k < src → k < dst → ∀ d, (swapRangesList l src len dst).getD k d = l.getD k d := by
  intro len
  induction len with
  | zero => intro l src dst k _ _ d; rfl
  | succ n ih =>
    intro l src dst k hks hkd d
    show (swapRangesList (swapIdx l src dst) (src + 1) n (dst + 1)).getD k d = l.getD k d
    rw [ih _ _ _ _ (by omega) (by omega)]
    exact swapIdx_getD_ne (by omega) (by omega) d

theorem swapRangesList_length (len : Nat) (l : List (point α)) (src dst : Nat) :
    (swapRangesList l src len dst).length = l.length :=
  (swapRangesList_perm len l src dst).length_eq

/-- The first swap of swap_ranges writes the source element at the
destination position; when dst ≤ src all later swaps happen past dst. -/
theorem swapRangesList_getD_dst (len : Nat) (hlen : 1 ≤ len)
    (l : List (point α)) (src dst : Nat) (hds : dst ≤ src) (hsrc : src < l.length)
    (d : point α) : (swapRangesList l src len dst).getD dst d = l.getD src d := by
  cases len with
  | zero => omega
  | succ n =>
    show (swapRangesList (swapIdx l src dst) (src + 1) n (dst + 1)).getD dst d = _
    rw [swapRangesList_getD_lt n _ _ _ _ (by omega) (by omega)]
    exact swapIdx_getD_right hsrc (by omega) d

theorem getD_append_left {l1 l2 : List (point α)} {k : Nat} (h : k < l1.length)
    (d : point α) : (l1 ++ l2).getD k d = l1.getD k d := by
  rw [List.getD_eq_getElem?_getD, List.getD_eq_getElem?_getD,
    List.getElem?_append, if_pos h]

theorem getD_append_right {l1 l2 : List (point α)} {k : Nat} (h : l1.length ≤ k)
    (d : point α) : (l1 ++ l2).getD k d = l2.getD (k - l1.length) d := by
  rw [List.getD_eq_getElem?_getD, List.getD_eq_getElem?_getD,
    List.getElem?_append_right h]

theorem hsp_take (pr : point α → Bool) (l : List (point α)) :
    (half_stable_partition pr l).1.take (half_stable_partition pr l).2 =
      l.filter pr := by
  simp only [half_stable_partition]
  rw [List.take_left, (hspGo_spec pr l []).1]

theorem hsp_snd (pr : point α → Bool) (l : List (point α)) :
    (half_stable_partition pr l).2 = (l.filter pr).length := by
  simp only [half_stable_partition]
  rw [(hspGo_spec pr l []).1]

/-- The scanned maximum dominates the inherited bound and every scanned
distance. -/
theorem argmaxGo_snd_ge (d u : point α) : ∀ (t : List (point α)) (best : Nat)
    (bd : α) (idx : Nat),
    bd ≤ (argmaxGo d u best bd idx t).2 ∧
    ∀ p ∈ t, point.cross d (u - p) ≤ (argmaxGo d u best bd idx t).2 := by
  intro t
  induction t with
  | nil =>
    intro best bd idx
    exact ⟨le_refl bd, by intro p hp; exact absurd hp (List.not_mem_nil p)⟩
  | cons p t2 ih =>
    intro best bd idx
    by_cases hc : bd < point.cross d (u - p)
    · simp only [argmaxGo, hc, if_true, if_false]
      have h := ih idx (point.cross d (u - p)) (idx + 1)
      refine ⟨le_of_lt (lt_of_lt_of_le hc h.1), ?_⟩
      intro q hq
      rcases List.mem_cons.mp hq with hq1 | hq2
      · rw [hq1]; exact h.1
      · exact h.2 q hq2
    · simp only [argmaxGo, hc, if_true, if_false]
      have h := ih best bd (idx + 1)
      refine ⟨h.1, ?_⟩
      intro q hq
      rcases List.mem_cons.mp hq with hq1 | hq2
      · rw [hq1]; exact le_trans (not_lt.mp hc) h.1
      · exact h.2 q hq2

/-- The scan either keeps the inherited pair or returns the index and
distance of some scanned element. -/
theorem argmaxGo_cases (d u : point α) : ∀ (t : List (point α)) (best : Nat)
    (bd : α) (idx : Nat),
    ((argmaxGo d u best bd idx t).1 = best ∧ (argmaxGo d u best bd idx t).2 = bd) ∨
    ∃ k, k < t.length ∧ (argmaxGo d u best bd idx t).1 = idx + k ∧
      (argmaxGo d u best bd idx t).2 = point.cross d (u - t.getD k pzero) := by
  intro t
  induction t with
  | nil => intro best bd idx; exact Or.inl ⟨rfl, rfl⟩
  | cons p t2 ih =>
    intro best bd idx
    by_cases hc : bd < point.cross d (u - p)
    · simp only [argmaxGo, hc, if_true, if_false]
      rcases ih idx (point.cross d (u - p)) (idx + 1) with ⟨h1, h2⟩ | ⟨k, hk, h1, h2⟩
      · exact Or.inr ⟨0, by simp, by simpa using h1, by simpa using h2⟩
      · exact Or.inr ⟨k + 1, by simpa using Nat.succ_lt_succ hk, by omega,
          by simpa using h2⟩
    · simp only [argmaxGo, hc, if_true, if_false]
      rcases ih best bd (idx + 1) with ⟨h1, h2⟩ | ⟨k, hk, h1, h2⟩
      · exact Or.inl ⟨h1, h2⟩
      · exact Or.inr ⟨k + 1, by simpa using Nat.succ_lt_succ hk, by omega,
          by simpa using h2⟩

theorem argmax_allzero (d u : point α) : ∀ (t : List (point α)) (best idx : Nat),
    (∀ p ∈ t, point.cross d (u - p) = 0) →
    argmaxGo d u best 0 idx t = (best, 0) := by
  intro t
  induction t with
  | nil => intro best idx _; rfl
  | cons p t2 ih =>
    intro best idx hall
    have hp : point.cross d (u - p) = 0 := hall p (List.mem_cons_self p t2)
    have hc : ¬ ((0 : α) < point.cross d (u - p)) := by rw [hp]; exact lt_irrefl 0
    simp only [argmaxGo, hc, if_false]
    exact ih best (idx + 1) (fun q hq => hall q (List.mem_cons_of_mem p hq))

/-- When every scanned distance is zero the farthest-point scan of
findHull settles on index 0 with distance 0 (the initial -1 is beaten by
the first element and never again). -/
theorem argmax_allzero_top (d u : point α) (p : point α) (t2 : List (point α))
    (hall : ∀ q ∈ p :: t2, point.cross d (u - q) = 0) :
    argmaxGo d u 0 (-1) 0 (p :: t2) = (0, 0) := by
  have hp : point.cross d (u - p) = 0 := hall p (List.mem_cons_self p t2)
  have hc : (-1 : α) < point.cross d (u - p) := by
    rw [hp]; exact neg_one_lt_zero
  simp only [argmaxGo, hc, if_true]
  rw [hp]
  exact argmax_allzero d u t2 0 1 (fun q hq => hall q (List.mem_cons_of_mem p hq))

theorem findHull_single (f : Nat) (hf : 1 ≤ f) (x v : point α) :
    findHull f [x] x v = .ok ([x], 1) := by
  cases f with
  | zero => omega
  | succ f2 => simp [findHull]

/-- A successful findHull call keeps the anchor u at position 0, and its
boundary lies between 1 and the range length. -/
theorem findHull_facts :
    ∀ (fuel : Nat) (l : List (point α)) (u v : point α)
      (res : List (point α)) (b : Nat),
      findHull fuel l u v = .ok (res, b) →
      res.getD 0 pzero = u ∧ 1 ≤ b ∧ b ≤ l.length := by
  intro fuel
  induction fuel with
  | zero =>
    intro l u v res b h
    exact Except.noConfusion h
  | succ f ih =>
    intro l u v res b h
    match l with
    | [] => exact Except.noConfusion h
    | [x] =>
      by_cases hx : x = u
      · have : findHull (f + 1) [x] u v = .ok ([x], 1) := by
          simp [findHull, hx]
        rw [this] at h
        cases h
        exact ⟨hx, le_refl 1, le_refl 1⟩
      · have : findHull (f + 1) [x] u v = .error .assertFailed := by
          simp [findHull, hx]
        rw [this] at h
        exact Except.noConfusion h
    | x :: p0 :: rest0 =>
      simp only [findHull] at h
      split at h
      · exact Except.noConfusion h
      · split at h
        · exact Except.noConfusion h
        · split at h
          · exact Except.noConfusion h
          · rename_i leftR lb hL
            split at h
            · exact Except.noConfusion h
            · rename_i rightR rb hR
              cases h
              set rest := p0 :: rest0 with hrest
              set d := v - u with hd
              set fi := (argmaxGo d u 0 (-1) 0 rest).1 with hfi
              set far_p := rest.getD fi pzero with hfar
              set between := rest.take fi with hbetween
              set after := rest.drop (fi + 1) with hafter
              set isOut : point α → Bool := fun p =>
                decide (0 < point.cross (p - far_p) (v - far_p)) ||
                decide (0 < point.cross (u - far_p) (p - far_p)) with hiso
              have hfi_lt : fi < rest.length := by
                apply argmax_lt_length
                simp [hrest]
              have hLf := ih _ _ _ _ _ hL
              have hRf := ih _ _ _ _ _ hR
              have hLlen : leftR.length =
                  (x :: (half_stable_partition isOut between).1.take
                    (half_stable_partition isOut between).2).length :=
                (findHull_perm _ _ _ _ _ _ hL).length_eq
              have hbtle : ((half_stable_partition isOut between).1.take
                  (half_stable_partition isOut between).2).length ≤ between.length := by
                calc ((half_stable_partition isOut between).1.take
                    (half_stable_partition isOut between).2).length
                    ≤ (half_stable_partition isOut between).1.length := by
                      rw [List.length_take]; exact Nat.min_le_right _ _
                  _ = between.length := (half_stable_partition_perm isOut between).length_eq
              have hatle : ((half_stable_partition isOut after).1.take
                  (half_stable_partition isOut after).2).length ≤ after.length := by
                calc ((half_stable_partition isOut after).1.take
                    (half_stable_partition isOut after).2).length
                    ≤ (half_stable_partition isOut after).1.length := by
                      rw [List.length_take]; exact Nat.min_le_right _ _
                  _ = after.length := (half_stable_partition_perm isOut after).length_eq
              have hbet_len : between.length = fi := by
                rw [hbetween, List.length_take]
                exact Nat.min_eq_left (le_of_lt hfi_lt)
              have haft_len : after.length = rest.length - (fi + 1) := by
                rw [hafter, List.length_drop]
              refine ⟨?_, ?_, ?_⟩
              · -- position 0 is below both swapped regions and sits inside leftR
                rw [swapRangesList_getD_lt rb _ _ _ _ (by omega) (by omega 
                    <;> exact hLf.2.1)]
                · rw [getD_append_left, getD_append_left, getD_append_left]
                  · exact hLf.1
                  · simp only [List.length_cons] at hLlen; omega
                  · rw [List.length_append]
                    simp only [List.length_cons] at hLlen; omega
                  · rw [List.length_append, List.length_append]
                    simp only [List.length_cons] at hLlen; omega
              · omega
              · simp only [List.length_cons] at hLlen ⊢
                have h1 := hLf.2.2
                have h2 := hRf.2.2
                simp only [List.length_cons] at h1 h2
                omega
  
end C7Infra

end CPU

namespace CPU

section C7Main

variable {α : Type} [LinearOrderedCommRing α]

theorem cross_sub_swap (a b c : point α) :
    point.cross a (b - c) = -point.cross a (c - b) := by
  simp only [point.cross, point_sub_x, point_sub_y]
  ring

theorem sub_eq_pzero {a b : point α} (h : a - b = pzero) : a = b := by
  have h1 : a.x - b.x = 0 := congrArg point.x h
  have h2 : a.y - b.y = 0 := congrArg point.y h
  cases a with
  | mk ax ay =>
    cases b with
    | mk bx2 by2 =>
      simp only at h1 h2
      have e1 : ax = bx2 := by linarith
      have e2 : ay = by2 := by linarith
      rw [e1, e2]

theorem minmax_all_eq (x : point α) (xs : List (point α))
    (h : minVal x xs = maxVal x xs) : ∀ q ∈ x :: xs, q = minVal x xs := by
  intro q hq
  by_contra hne
  rcases ltLex_total hne with h1 | h2
  · exact minVal_not_lt xs x q hq h1
  · rw [h] at h2
    exact maxVal_not_lt xs x q hq h2

/-- The heart of the collinear fix-up claim: a successful top-level
findHull call on the lower side (anchors L lex-min and R lex-max of the
enclosing point set) whose result has the position-1 point exactly on
the line L-R returns boundary 2.  Either every scanned point is on the
line (then both recursions degenerate to singletons and the boundary is
1 + 1), or the far point is strictly off the line, and then position 1
holds either the far point itself or an isOuterior survivor, neither of
which can be on the line. -/
theorem findHull_collinear_rb (f : Nat) (L R p0 : point α)
    (rest0 : List (point α)) (B2 : List (point α)) (rbB : Nat)
    (hB : findHull (f + 1) (L :: p0 :: rest0) L R = .ok (B2, rbB))
    (hLR : LtLex L R)
    (hqL : ∀ q ∈ L :: p0 :: rest0, ¬ LtLex q L)
    (hqR : ∀ q ∈ L :: p0 :: rest0, ¬ LtLex R q)
    (hcol : point.cross (R - L) (B2.getD 1 pzero - L) = 0) :
    rbB = 2 := by
  simp only [findHull] at hB
  split at hB
  · exact Except.noConfusion hB
  · split at hB
    · exact Except.noConfusion hB
    · rename_i hxu hneg
      split at hB
      · exact Except.noConfusion hB
      · rename_i leftR lb hL
        split at hB
        · exact Except.noConfusion hB
        · rename_i rightR rb hR
          cases hB
          set rest := p0 :: rest0 with hrest
          set d := R - L with hd
          set fi := (argmaxGo d L 0 (-1) 0 rest).1 with hfi
          set far_p := rest.getD fi pzero with hfar
          set between := rest.take fi with hbetween
          set after := rest.drop (fi + 1) with hafter
          set isOut : point α → Bool := fun p =>
            decide (0 < point.cross (p - far_p) (R - far_p)) ||
            decide (0 < point.cross (L - far_p) (p - far_p)) with hiso
          have hfi_lt : fi < rest.length := by
            apply argmax_lt_length
            simp [hrest]
          have hnn : ∀ p ∈ rest, 0 ≤ point.cross d (L - p) := by
            intro p hp
            by_contra hcon
            push_neg at hcon
            exact hneg (List.any_eq_true.mpr ⟨p, hp, by simpa using hcon⟩)
          by_cases hall : ∀ p ∈ rest, point.cross d (L - p) = 0
          · -- every scanned distance is zero: both recursions degenerate
            rcases Nat.eq_zero_or_pos f with hf0 | hfpos
            · rw [hf0] at hL
              simp [findHull] at hL
            · have hmax0 : argmaxGo d L 0 (-1) 0 rest = (0, 0) := by
                rw [hrest]
                exact argmax_allzero_top d L p0 rest0
                  (fun q hq => hall q (by rw [hrest]; exact hq))
              have hfi0 : fi = 0 := by rw [hfi, hmax0]
              have hfarv : far_p = p0 := by rw [hfar, hfi0, hrest]; rfl
              have hbet : between = [] := by rw [hbetween, hfi0]; rfl
              have haft : after = rest0 := by rw [hafter, hfi0, hrest]; rfl
              rw [hbet] at hL
              rw [show ((half_stable_partition isOut ([] : List (point α))).1.take
                  (half_stable_partition isOut ([] : List (point α))).2) =
                  ([] : List (point α)) from rfl] at hL
              rw [findHull_single f hfpos L far_p] at hL
              have hw : ¬ (R - L = pzero) := by
                intro hcon
                exact ltLex_irrefl L (by rw [sub_eq_pzero hcon] at hLR; exact hLR)
              have hf0col : point.cross (R - L) (L - far_p) = 0 := by
                rw [← hd, hfarv]
                exact hall p0 (by rw [hrest]; exact List.mem_cons_self p0 rest0)
              have hfilt : after.filter isOut = [] := by
                rw [List.filter_eq_nil]
                intro q hq
                have hq0 : point.cross d (L - q) = 0 := by
                  apply hall
                  rw [haft] at hq
                  rw [hrest]
                  exact List.mem_cons_of_mem p0 hq
                have hqline : point.cross (R - L) (q - L) = 0 := by
                  rw [← hd, cross_sub_swap]
                  rw [hq0]
                  exact neg_zero
                have hz := onLine_par_zero hw hf0col hqline
                have h1 : ¬ (0 < point.cross (q - far_p) (R - far_p)) := by
                  rw [hz.1]; exact lt_irrefl 0
                have h2 : ¬ (0 < point.cross (L - far_p) (q - far_p)) := by
                  rw [hz.2]; exact lt_irrefl 0
                simp [hiso, h1, h2]
              have hha2 : (half_stable_partition isOut after).2 = 0 := by
                rw [hsp_snd, hfilt]
                rfl
              rw [hha2, List.take_zero] at hR
              rw [findHull_single f hfpos far_p R] at hR
              cases hL
              cases hR
              rfl
          · -- some scanned distance is positive: position 1 cannot be on the line
            exfalso
            push_neg at hall
            obtain ⟨qs, hqs_mem, hqs_ne⟩ := hall
            have hqs_pos : 0 < point.cross d (L - qs) :=
              lt_of_le_of_ne (hnn qs hqs_mem) (Ne.symm hqs_ne)
            have hge := (argmaxGo_snd_ge d L rest 0 (-1) 0).2 qs hqs_mem
            have hfar_pos : 0 < point.cross d (L - far_p) := by
              rcases argmaxGo_cases d L rest 0 (-1) 0 with ⟨h1, h2⟩ | ⟨k, hk, h1, h2⟩
              · rw [h2] at hge
                linarith
              · have hfik : fi = k := by rw [hfi, h1]; omega
                rw [hfar, hfik, ← h2]
                linarith
            have hLf := findHull_facts f _ L far_p leftR lb hL
            have hRf := findHull_facts f _ far_p R rightR rb hR
            have hLlen := (findHull_perm f _ L far_p leftR lb hL).length_eq
            have hRlen := (findHull_perm f _ far_p R rightR rb hR).length_eq
            simp only [List.length_cons] at hLlen hRlen
            have hb1len : (half_stable_partition isOut between).1.length =
                between.length := (half_stable_partition_perm isOut between).length_eq
            have ha1len : (half_stable_partition isOut after).1.length =
                after.length := (half_stable_partition_perm isOut after).length_eq
            have hbet_len : between.length = fi := by
              rw [hbetween, List.length_take]
              exact Nat.min_eq_left (le_of_lt hfi_lt)
            have haft_len : after.length = rest.length - (fi + 1) := by
              rw [hafter, List.length_drop]
            have hb2le : (half_stable_partition isOut between).2 ≤
                (half_stable_partition isOut between).1.length := by
              rw [hsp_snd, hb1len]
              exact List.length_filter_le _ _
            have ha2le : (half_stable_partition isOut after).2 ≤
                (half_stable_partition isOut after).1.length := by
              rw [hsp_snd, ha1len]
              exact List.length_filter_le _ _
            have hbt_len : ((half_stable_partition isOut between).1.take
                (half_stable_partition isOut between).2).length =
                (half_stable_partition isOut between).2 := by
              rw [List.length_take]
              exact Nat.min_eq_left hb2le
            have hbd_len : ((half_stable_partition isOut between).1.drop
                (half_stable_partition isOut between).2).length =
                (half_stable_partition isOut between).1.length -
                (half_stable_partition isOut between).2 := by
              rw [List.length_drop]
            have hat_len : ((half_stable_partition isOut after).1.take
                (half_stable_partition isOut after).2).length =
                (half_stable_partition isOut after).2 := by
              rw [List.length_take]
              exact Nat.min_eq_left ha2le
            have had_len : ((half_stable_partition isOut after).1.drop
                (half_stable_partition isOut after).2).length =
                (half_stable_partition isOut after).1.length -
                (half_stable_partition isOut after).2 := by
              rw [List.length_drop]
            have hoff : leftR.length +
                ((half_stable_partition isOut between).1.drop
                  (half_stable_partition isOut between).2).length = 1 + fi := by
              rw [hLlen, hbt_len, hbd_len, hb1len, hbet_len]
              omega
            have hoff2 : (leftR ++ (half_stable_partition isOut between).1.drop
                (half_stable_partition isOut between).2).length = 1 + fi := by
              rw [List.length_append]
              exact hoff
            have hfull_len : (leftR ++ (half_stable_partition isOut between).1.drop
                  (half_stable_partition isOut between).2 ++ rightR ++
                  (half_stable_partition isOut after).1.drop
                  (half_stable_partition isOut after).2).length =
                rest.length + 1 := by
              rw [List.length_append, List.length_append, hoff2, hRlen, hat_len,
                had_len, ha1len, haft_len]
              omega
            rcases Nat.lt_or_ge lb 2 with hlb | hlb
            · -- lb = 1: position 1 of the merged range is the far point
              have hlb1 : lb = 1 := by
                have := hLf.2.1
                omega
              have hB21 : (swapRangesList
                  (leftR ++ (half_stable_partition isOut between).1.drop
                    (half_stable_partition isOut between).2 ++ rightR ++
                    (half_stable_partition isOut after).1.drop
                    (half_stable_partition isOut after).2) (1 + fi) rb lb).getD 1 pzero =
                  (leftR ++ (half_stable_partition isOut between).1.drop
                    (half_stable_partition isOut between).2 ++ rightR ++
                    (half_stable_partition isOut after).1.drop
                    (half_stable_partition isOut after).2).getD (1 + fi) pzero := by
                rw [hlb1]
                exact swapRangesList_getD_dst rb hRf.2.1 _ (1 + fi) 1 (by omega)
                  (by rw [hfull_len]; omega) pzero
              have hfull_at : (leftR ++ (half_stable_partition isOut between).1.drop
                    (half_stable_partition isOut between).2 ++ rightR ++
                    (half_stable_partition isOut after).1.drop
                    (half_stable_partition isOut after).2).getD (1 + fi) pzero =
                  far_p := by
                rw [getD_append_left (by
                  rw [List.length_append, hoff2]
                  omega)]
                rw [getD_append_right (by rw [hoff2])]
                rw [hoff2, Nat.sub_self]
                exact hRf.1
              rw [hB21, hfull_at] at hcol
              rw [cross_sub_swap] at hcol
              have : point.cross d (L - far_p) = 0 := by linarith
              linarith
            · -- lb >= 2: position 1 survives from the left recursion's kept set
              have hbtpos : 1 ≤ ((half_stable_partition isOut between).1.take
                  (half_stable_partition isOut between).2).length := by
                have := hLf.2.2
                simp only [List.length_cons] at this
                omega
              have hfi1 : 1 ≤ fi := by
                rw [hbt_len] at hbtpos
                have := hb2le
                rw [hb1len, hbet_len] at this
                omega
              have hB21 : (swapRangesList
                  (leftR ++ (half_stable_partition isOut between).1.drop
                    (half_stable_partition isOut between).2 ++ rightR ++
                    (half_stable_partition isOut after).1.drop
                    (half_stable_partition isOut after).2) (1 + fi) rb lb).getD 1 pzero =
                  (leftR ++ (half_stable_partition isOut between).1.drop
                    (half_stable_partition isOut between).2 ++ rightR ++
                    (half_stable_partition isOut after).1.drop
                    (half_stable_partition isOut after).2).getD 1 pzero :=
                swapRangesList_getD_lt rb _ (1 + fi) lb 1 (by omega) (by omega) pzero
              have hlRlen : 2 ≤ leftR.length := by
                rw [hLlen]
                omega
              have hfull1 : (leftR ++ (half_stable_partition isOut between).1.drop
                    (half_stable_partition isOut between).2 ++ rightR ++
                    (half_stable_partition isOut after).1.drop
                    (half_stable_partition isOut after).2).getD 1 pzero =
                  leftR.getD 1 pzero := by
                rw [getD_append_left (by
                  rw [List.length_append, hoff2]
                  omega)]
                rw [getD_append_left (by rw [hoff2]; omega)]
                rw [getD_append_left (by omega)]
              cases hlR : leftR with
              | nil =>
                rw [hlR] at hlRlen
                simp at hlRlen
              | cons lh lt2 =>
                have hlh : lh = L := by
                  have := hLf.1
                  rw [hlR] at this
                  simpa using this
                have hlt_perm : lt2.Perm
                    ((half_stable_partition isOut between).1.take
                      (half_stable_partition isOut between).2) := by
                  have hp := findHull_perm f _ L far_p leftR lb hL
                  rw [hlR, hlh] at hp
                  exact hp.cons_inv
                have hlt_len : lt2.length =
                    ((half_stable_partition isOut between).1.take
                      (half_stable_partition isOut between).2).length :=
                  hlt_perm.length_eq
                have hq_mem_lt : lt2.getD 0 pzero ∈ lt2 :=
                  getD_mem (by omega) pzero
                have hq_btake : lt2.getD 0 pzero ∈
                    ((half_stable_partition isOut between).1.take
                      (half_stable_partition isOut between).2) :=
                  hlt_perm.mem_iff.mp hq_mem_lt
                rw [hsp_take] at hq_btake
                have hisOut : isOut (lt2.getD 0 pzero) = true :=
                  (List.mem_filter.mp hq_btake).2
                have hq_between : lt2.getD 0 pzero ∈ between :=
                  (List.mem_filter.mp hq_btake).1
                have hq_rest : lt2.getD 0 pzero ∈ rest := by
                  rw [hbetween] at hq_between
                  exact List.take_subset fi rest hq_between
                have hq_all : lt2.getD 0 pzero ∈ L :: p0 :: rest0 := by
                  have hmm : lt2.getD 0 pzero ∈ L :: rest :=
                    List.mem_cons_of_mem L hq_rest
                  rw [hrest] at hmm
                  exact hmm
                have hcolq : point.cross (R - L) (lt2.getD 0 pzero - L) = 0 := by
                  rw [hB21, hfull1, hlR] at hcol
                  rw [← hd]
                  simpa using hcol
                have hdist : 0 < point.cross (R - L) (L - far_p) := by
                  rw [← hd]
                  exact hfar_pos
                have honl := onLine_not_out hLR hcolq (hqL _ hq_all) (hqR _ hq_all)
                  hdist
                rw [hiso] at hisOut
                simp only [Bool.or_eq_true, decide_eq_true_eq] at hisOut
                rcases hisOut with hout | hout
                · linarith [honl.1]
                · linarith [honl.2]

end C7Main

end CPU

namespace CPU

section C7Claim

variable {α : Type} [LinearOrderedCommRing α]

/-- The right-side findHull call of quickHull, with its anchors the
lexicographic minimum and maximum of the whole point set, returns
boundary 2 whenever the merged result's position-1 point lies exactly on
the line between the anchors. -/
theorem quickHull_B_rb (x : point α) (xs : List (point α))
    (B1 B2 : List (point α)) (rbB : Nat)
    (hmem : ∀ q ∈ B1, q ∈ x :: xs)
    (hnotR : ∀ q ∈ B1, q ≠ maxVal x xs)
    (hhead : B1.head? = some (minVal x xs))
    (hB : findHull B1.length B1 (minVal x xs) (maxVal x xs) = .ok (B2, rbB))
    (hlen : 2 ≤ B2.length)
    (hcol : point.cross (maxVal x xs - minVal x xs)
      (B2.getD 1 pzero - minVal x xs) = 0) :
    rbB = 2 := by
  have hlenB : B2.length = B1.length := (findHull_perm _ _ _ _ _ _ hB).length_eq
  cases hB1c : B1 with
  | nil =>
    rw [hB1c] at hhead
    exact Option.noConfusion hhead
  | cons b0 Bt =>
    have hb0 : b0 = minVal x xs := by
      rw [hB1c] at hhead
      simpa using hhead
    cases hBt : Bt with
    | nil =>
      rw [hB1c, hBt] at hlenB
      simp at hlenB
      omega
    | cons p0 rest0 =>
      rw [hB1c, hBt, hb0] at hB
      have hne : minVal x xs ≠ maxVal x xs := by
        intro he
        apply hnotR (minVal x xs) _ he
        rw [hB1c, hBt, hb0]
        exact List.mem_cons_self _ _
      have hLR : LtLex (minVal x xs) (maxVal x xs) := by
        rcases ltLex_total hne with h | h
        · exact h
        · exact absurd h (minVal_not_lt xs x (maxVal x xs) (maxVal_mem xs x))
      have hqL : ∀ q ∈ minVal x xs :: p0 :: rest0, ¬ LtLex q (minVal x xs) := by
        intro q hq
        rcases List.mem_cons.mp hq with hq1 | hq2
        · rw [hq1]
          exact ltLex_irrefl _
        · apply minVal_not_lt xs x q
          apply hmem
          rw [hB1c, hBt]
          exact List.mem_cons_of_mem b0 hq2
      have hqR : ∀ q ∈ minVal x xs :: p0 :: rest0, ¬ LtLex (maxVal x xs) q := by
        intro q hq
        rcases List.mem_cons.mp hq with hq1 | hq2
        · rw [hq1]
          exact minVal_not_lt xs x (maxVal x xs) (maxVal_mem xs x)
        · apply maxVal_not_lt xs x q
          apply hmem
          rw [hB1c, hBt]
          exact List.mem_cons_of_mem b0 hq2
      exact findHull_collinear_rb (rest0.length + 1) (minVal x xs) (maxVal x xs)
        p0 rest0 B2 rbB hB hLR hqL hqR hcol

end C7Claim

end CPU

namespace CPU

section C7Theorem

variable {α : Type} [LinearOrderedCommRing α]

/-- C7: whenever quickHull's two findHull calls succeed (state st of
quickHullMid), the merged right side has at least two points, and the
point at position 1 of the right side (the point immediately after the
split boundary, pivot[1]) lies exactly on the line through left and
right, the right recursion's boundary rbB is exactly 2 (pivot + 2 ==
right_boundary), and quickHull excludes that collinear point by
shrinking the merged boundary by one: the final count is lbA + (2 - 1) =
lbA + 1. -/
theorem c7_collinear_fixup (l : List (point α)) (st : QHMid α)
    (hmid : quickHullMid l = .ok st)
    (hlen : 2 ≤ st.B2.length)
    (hcol : point.cross (st.right - st.left) (st.B2.getD 1 pzero - st.left) = 0) :
    st.rbB = 2 ∧
    quickHull l = .ok (swapRangesList (st.A2 ++ st.B2) st.A2.length 1 st.lbA,
      st.lbA + 1) := by
  have hrb2 : st.rbB = 2 := by
    have hmid2 := hmid
    match l, hmid2 with
    | [], hmid2 => exact Except.noConfusion hmid2
    | x :: xs, hmid2 =>
      simp only [quickHullMid] at hmid2
      split at hmid2
      · exact Except.noConfusion hmid2
      · split at hmid2
        · exact Except.noConfusion hmid2
        · rename_i bh hBh
          split at hmid2
          · exact Except.noConfusion hmid2
          · rename_i hbh
            split at hmid2
            · exact Except.noConfusion hmid2
            · rename_i A2v lbAv hA
              split at hmid2
              · exact Except.noConfusion hmid2
              · rename_i B2v rbBv hB2
                cases hmid2
                show rbBv = 2
                have hbh2 : bh = minVal x xs := not_ne_iff.mp hbh
                refine quickHull_B_rb x xs _ B2v rbBv ?_ ?_ ?_ hB2 hlen hcol
                · intro q hq
                  have hq2 := (sortC_perm ltLexB _).mem_iff.mp hq
                  exact (List.mem_filter.mp hq2).1
                · intro q hq
                  have hq2 := (sortC_perm ltLexB _).mem_iff.mp hq
                  have hf := (List.mem_filter.mp hq2).2
                  simp only [Bool.not_eq_true', Bool.or_eq_false_iff,
                    decide_eq_false_iff_not] at hf
                  intro hcon
                  exact hf.1 hcon
                · rw [hBh, hbh2]
  refine ⟨hrb2, ?_⟩
  have hfix : (if 2 ≤ st.B2.length then
        if point.cross (st.right - st.left) (st.B2.getD 1 pzero - st.left) = 0 then
          if st.rbB = 2 then Except.ok (st.rbB - 1)
          else Except.error Err.assertFailed
        else Except.ok st.rbB
      else Except.ok st.rbB) = (Except.ok (st.rbB - 1) : Except Err Nat) := by
    rw [if_pos hlen, if_pos hcol, if_pos hrb2]
  unfold quickHull
  rw [hmid]
  simp only []
  rw [hfix, hrb2]

end C7Theorem

end CPU

namespace CPU

/-- Witness for C7 at the collinear input [(0,0), (1,0), (2,0)]: the
findHull state has B2 = [(0,0), (1,0)] with (1,0) on the line from
(0,0) to (2,0); the right boundary is 2 and quickHull returns count
1 + 1 = 2. -/
theorem c7_collinear_fixup_witness :
    (⟨[⟨2,0⟩], 1, [⟨0,0⟩, ⟨1,0⟩], 2, ⟨0,0⟩, ⟨2,0⟩⟩ : QHMid ℤ).rbB = 2 ∧
    quickHull [(⟨0,0⟩ : point ℤ), ⟨1,0⟩, ⟨2,0⟩] =
      .ok (swapRangesList ([(⟨2,0⟩ : point ℤ)] ++ [⟨0,0⟩, ⟨1,0⟩]) 1 1 1, 2) :=
  c7_collinear_fixup [⟨0,0⟩, ⟨1,0⟩, ⟨2,0⟩]
    ⟨[⟨2,0⟩], 1, [⟨0,0⟩, ⟨1,0⟩], 2, ⟨0,0⟩, ⟨2,0⟩⟩ rfl (by decide) (by decide)

end CPU

namespace CPU

/-- C9: idempotence fails on a degenerate first-run hull.  On the
collinear input with duplicated maximum [(0,0), (1,0), (2,0), (2,0)],
quickHull returns hull count 3 with the duplicated prefix
[(2,0), (2,0), (0,0)]; rerunning the hull computation (grahamScan) on
exactly those 3 hull vertices returns hull count 2, not 3 -- the hull
shrinks. -/
theorem c9_idempotence_fails_on_degenerate_hull :
    quickHull [(⟨0,0⟩ : point ℤ), ⟨1,0⟩, ⟨2,0⟩, ⟨2,0⟩] =
      .ok ([⟨2,0⟩, ⟨2,0⟩, ⟨0,0⟩, ⟨1,0⟩], 3) ∧
    grahamScan pzero ([(⟨2,0⟩ : point ℤ), ⟨2,0⟩, ⟨0,0⟩, ⟨1,0⟩].take 3) =
      .ok ([⟨0,0⟩, ⟨2,0⟩, ⟨2,0⟩], 2) ∧
    (2 : Nat) ≠ 3 :=
  ⟨rfl, rfl, by decide⟩

end CPU
